import Mathlib

/-!
Verification of the rocPRIM device-wide radix sort pass pipeline
(`library/rocprim/include/device/detail/device_radix_sort.hpp`).

The four device kernels — `fill_digit_counts`, `scan_batches`, `scan_digits`
and `sort_and_scatter` — are shallowly embedded as sequential Lean functions
over `Nat` bit keys and `List`-valued device arrays.  SIMT-parallel loops are
sequentialized in the canonical thread order; warp ballots are modelled as
explicit lane-mask computations; `unsigned` device arithmetic is modelled on
`Nat` (all quantities proved to stay within range under the stated
preconditions, so no wrap-around occurs); the 16-bit `unsigned short`
`starts`/`ends` shared arrays are modelled with an explicit `% 65536`.

External collaborators that are not part of this repository's sources (the
`radix_key_codec` bit codec and the block-level primitives `block_radix_sort`,
`block_scan`, `block_discontinuity`, `block_exchange`, `block_load`) are
modelled from the spec at their documented contracts; each such definition
carries a doc comment saying so.
-/

namespace RocSort

/-! ### Digits (device_radix_sort.hpp lines 78, 131, 308, 377, 414) -/

/-- `radix_mask` — `(1u << current_radix_bits) - 1` (lines 78 and 308). -/
def radix_mask (crb : Nat) : Nat := (1 <<< crb) - 1

/-- The digit of bit key `k` in the window `[bit, bit + crb)`:
`(bit_key >> bit) & radix_mask` (lines 131, 377, 414). -/
def digitOf (bit crb k : Nat) : Nat := (k >>> bit) &&& radix_mask crb

theorem radix_mask_eq (crb : Nat) : radix_mask crb = 2 ^ crb - 1 := by
  simp [radix_mask, Nat.shiftLeft_eq]

theorem digitOf_eq_mod (bit crb k : Nat) :
    digitOf bit crb k = k / 2 ^ bit % 2 ^ crb := by
  simp [digitOf, radix_mask_eq, Nat.shiftRight_eq_div_pow, Nat.and_pow_two_sub_one_eq_mod]

theorem digitOf_lt (bit crb k : Nat) : digitOf bit crb k < 2 ^ crb := by
  rw [digitOf_eq_mod]
  exact Nat.mod_lt _ (Nat.pos_pow_of_pos crb (by norm_num))

/-! ### Batch block ranges (lines 93–105 and 318–330)

Both `fill_digit_counts` and `sort_and_scatter` derive their assigned block
range from `batch_id` with the same code:
```
if(batch_id < full_batches) { blocks_per_batch = blocks_per_full_batch;
                              block_offset = batch_id * blocks_per_batch; }
else { blocks_per_batch = blocks_per_full_batch - 1;
       block_offset = batch_id * blocks_per_batch + full_batches; }
```
-/

/-- Number of blocks assigned to batch `b`. -/
def blocks_per_batch (bpfb fb b : Nat) : Nat :=
  if b < fb then bpfb else bpfb - 1

/-- First block (in units of blocks) assigned to batch `b`. -/
def batch_block_offset (bpfb fb b : Nat) : Nat :=
  if b < fb then b * bpfb else b * (bpfb - 1) + fb

/-- The batching-configuration precondition supplied by the host orchestrator:
`full_batches ≤ grid` and the count identity
`full_batches·bpfb + (grid−full_batches)·(bpfb−1) = total_blocks`,
read in plain integer arithmetic. -/
structure ValidBatching (B bpfb fb T : Nat) : Prop where
  hfb : fb ≤ B
  heq : (fb : ℤ) * bpfb + ((B : ℤ) - fb) * ((bpfb : ℤ) - 1) = T

theorem ValidBatching.total (h : ValidBatching B bpfb fb T) :
    T = fb + B * (bpfb - 1) ∨ (bpfb = 0 ∧ fb = B ∧ T = 0) := by
  rcases Nat.eq_zero_or_pos bpfb with h0 | h1
  · right
    subst h0
    have heq := h.heq
    have hfb := h.hfb
    constructor
    · rfl
    push_cast at heq
    omega
  · left
    have heq := h.heq
    have hcast : ((bpfb : ℤ) - 1) = ((bpfb - 1 : Nat) : ℤ) := by
      push_cast [Nat.cast_sub h1]
      ring
    have : (T : ℤ) = (fb : ℤ) + (B : ℤ) * ((bpfb - 1 : Nat) : ℤ) := by
      rw [← hcast]
      linear_combination -heq
    exact_mod_cast this

/-- Step identity: when `1 ≤ bpfb`, consecutive batch block ranges are
adjacent, for every batch index. -/
theorem batch_block_offset_succ (bpfb fb : Nat) (h1 : 1 ≤ bpfb) (b : Nat) :
    batch_block_offset bpfb fb (b + 1)
      = batch_block_offset bpfb fb b + blocks_per_batch bpfb fb b := by
  unfold batch_block_offset blocks_per_batch
  rcases Nat.lt_or_ge (b + 1) fb with hb | hb
  · have hb' : b < fb := Nat.lt_of_succ_lt hb
    simp only [hb, hb', if_pos]
    ring
  · have hb1 : ¬ (b + 1 < fb) := Nat.not_lt.mpr hb
    rcases Nat.lt_or_ge b fb with hbf | hbf
    · have hfbeq : fb = b + 1 := Nat.le_antisymm hb (Nat.succ_le_of_lt hbf)
      simp only [hb1, if_neg, hbf, if_pos, not_false_iff]
      subst hfbeq
      have : bpfb - 1 + 1 = bpfb := Nat.succ_pred_eq_of_pos h1
      nlinarith [this]
    · have hbf' : ¬ (b < fb) := Nat.not_lt.mpr hbf
      simp only [hb1, hbf', if_neg, not_false_iff]
      ring

/-- The concatenation of all batches' block ranges is exactly `[0, T)`. -/
theorem batches_flatMap_eq (B bpfb fb T : Nat) (h : ValidBatching B bpfb fb T) :
    (List.range B).flatMap
        (fun b => List.range' (batch_block_offset bpfb fb b) (blocks_per_batch bpfb fb b))
      = List.range' 0 T := by
  rcases Nat.eq_zero_or_pos bpfb with h0 | h1
  · have hT : T = 0 := by
      have heq := h.heq
      have hfb := h.hfb
      subst h0
      push_cast at heq
      omega
    subst h0 hT
    have hall : ∀ b, blocks_per_batch 0 fb b = 0 := by
      intro b
      unfold blocks_per_batch
      split <;> simp
    simp only [List.range'_zero]
    apply List.flatMap_eq_nil_iff.mpr
    intro b _
    rw [hall b]
    rfl
  · -- non-degenerate case: prove the prefix version by induction
    have step := batch_block_offset_succ bpfb fb h1
    have hpre : ∀ n : Nat,
        (List.range n).flatMap
            (fun b => List.range' (batch_block_offset bpfb fb b) (blocks_per_batch bpfb fb b))
          = List.range' 0 (batch_block_offset bpfb fb n) := by
      intro n
      induction n with
      | zero => simp [batch_block_offset]
      | succ n ih =>
        rw [List.range_succ, List.flatMap_append, ih, List.flatMap_cons,
          List.flatMap_nil, List.append_nil, step n]
        have := List.range'_append 0 (batch_block_offset bpfb fb n)
          (blocks_per_batch bpfb fb n) 1
        simpa [Nat.add_comm] using this
    rw [hpre B]
    congr 1
    rcases h.total with ht | ⟨h0, _, _⟩
    · unfold batch_block_offset
      rcases Nat.lt_or_ge B fb with hBfb | hBfb
      · exact absurd (Nat.lt_of_le_of_lt h.hfb hBfb) (Nat.lt_irrefl _)
      · have : ¬ (B < fb) := Nat.not_lt.mpr hBfb
        rw [if_neg this, ht]
        ring
    · omega

theorem batch_block_offset_mono (bpfb fb : Nat) (h1 : 1 ≤ bpfb) :
    Monotone (batch_block_offset bpfb fb) := by
  apply monotone_nat_of_le_succ
  intro b
  rw [batch_block_offset_succ bpfb fb h1 b]
  exact Nat.le_add_right _ _

/-- Every block index below the total is owned by exactly one batch. -/
theorem batches_cover_once (B bpfb fb T : Nat) (h : ValidBatching B bpfb fb T)
    (t : Nat) (ht : t < T) :
    ∃! b, b < B ∧ batch_block_offset bpfb fb b ≤ t
      ∧ t < batch_block_offset bpfb fb b + blocks_per_batch bpfb fb b := by
  have hmem : t ∈ (List.range B).flatMap
      (fun b => List.range' (batch_block_offset bpfb fb b) (blocks_per_batch bpfb fb b)) := by
    rw [batches_flatMap_eq B bpfb fb T h, List.mem_range'_1]
    exact ⟨Nat.zero_le t, by simpa using ht⟩
  rcases List.mem_flatMap.mp hmem with ⟨b, hb, hbr⟩
  have hbB := List.mem_range.mp hb
  rw [List.mem_range'_1] at hbr
  have h1 : 1 ≤ bpfb := by
    by_contra h0
    have h0' : bpfb = 0 := by omega
    have hT0 : T = 0 := by
      have heq := h.heq
      have hfb := h.hfb
      subst h0'
      push_cast at heq
      omega
    omega
  refine ⟨b, ⟨hbB, hbr.1, hbr.2⟩, ?_⟩
  rintro b' ⟨hb'B, hb'lo, hb'hi⟩
  by_contra hne
  have key : ∀ x y : Nat, x < y →
      batch_block_offset bpfb fb x ≤ t →
      t < batch_block_offset bpfb fb y + blocks_per_batch bpfb fb y →
      t < batch_block_offset bpfb fb x + blocks_per_batch bpfb fb x →
      batch_block_offset bpfb fb y ≤ t → False := by
    intro x y hxy hxlo _ hxhi hylo
    have hstep := batch_block_offset_succ bpfb fb h1 x
    have hmono := batch_block_offset_mono bpfb fb h1 (show x + 1 ≤ y from hxy)
    omega
  rcases Nat.lt_or_ge b' b with hlt | hge
  · exact key b' b hlt hb'lo hbr.2 hb'hi hbr.1
  · have hlt : b < b' := Nat.lt_of_le_of_ne hge (fun hh => hne hh.symm)
    exact key b b' hlt hbr.1 hb'hi hbr.2 hb'lo

/-- C5 — Batching partition invariant: under the orchestrator's batching
precondition, the per-batch block ranges computed by `fill_digit_counts` and
`sort_and_scatter` are contiguous, non-overlapping, and cover `[0, T)`
exactly once; and in the spec's concrete example (`size = 10`, `BlockSize = 4`,
`ItemsPerThread = 1`, `T = 3`, `B = 2`, `blocks_per_full_batch = 2`,
`full_batches = 1`) batch 0 owns blocks `[0, 2)` covering items `[0, 8)` and
batch 1 owns block `[2, 3)` covering the in-range items `[8, 10)`. -/
theorem C5_batching_partition (B bpfb fb T : Nat) (h : ValidBatching B bpfb fb T) :
    ((List.range B).flatMap
        (fun b => List.range' (batch_block_offset bpfb fb b) (blocks_per_batch bpfb fb b))
       = List.range' 0 T)
    ∧ (∀ t, t < T → ∃! b, b < B ∧ batch_block_offset bpfb fb b ≤ t
        ∧ t < batch_block_offset bpfb fb b + blocks_per_batch bpfb fb b)
    ∧ (∀ b, b + 1 < B → batch_block_offset bpfb fb (b + 1)
        = batch_block_offset bpfb fb b + blocks_per_batch bpfb fb b)
    ∧ (blocks_per_batch 2 1 0 = 2 ∧ batch_block_offset 2 1 0 * 4 = 0
        ∧ blocks_per_batch 2 1 1 = 1 ∧ batch_block_offset 2 1 1 * 4 = 8
        ∧ (List.range' 8 4).filter (· < 10) = [8, 9]) := by
  refine ⟨batches_flatMap_eq B bpfb fb T h, batches_cover_once B bpfb fb T h, ?_, by decide⟩
  intro b hbB
  rcases Nat.eq_zero_or_pos bpfb with h0 | h1
  · have hfbB : fb = B := by
      have heq := h.heq
      have hfb := h.hfb
      subst h0
      push_cast at heq
      omega
    subst hfbB
    unfold batch_block_offset blocks_per_batch
    subst h0
    have hb1 : b + 1 < fb := hbB
    have hb0 : b < fb := Nat.lt_of_succ_lt hb1
    simp [hb1, hb0]
  · exact batch_block_offset_succ bpfb fb h1 b

/-- Witness for C5 at the spec's own example configuration. -/
theorem C5_batching_partition_witness :
    ((List.range 2).flatMap
        (fun b => List.range' (batch_block_offset 2 1 b) (blocks_per_batch 2 1 b))
       = List.range' 0 3)
    ∧ (∀ t, t < 3 → ∃! b, b < 2 ∧ batch_block_offset 2 1 b ≤ t
        ∧ t < batch_block_offset 2 1 b + blocks_per_batch 2 1 b)
    ∧ (∀ b, b + 1 < 2 → batch_block_offset 2 1 (b + 1)
        = batch_block_offset 2 1 b + blocks_per_batch 2 1 b)
    ∧ (blocks_per_batch 2 1 0 = 2 ∧ batch_block_offset 2 1 0 * 4 = 0
        ∧ blocks_per_batch 2 1 1 = 1 ∧ batch_block_offset 2 1 1 * 4 = 8
        ∧ (List.range' 8 4).filter (· < 10) = [8, 9]) :=
  C5_batching_partition 2 2 1 3 ⟨by decide, by decide⟩

/-! ### Warp-ballot digit tally (`fill_digit_counts`, lines 129–148)

A warp is modelled as a list of `(valid, digit)` pairs in lane order, where
`valid` is the predicate `pos < valid_count` of the initial
`ballot(pos < valid_count)` and `digit` is the lane's (possibly garbage)
digit value.  The per-bit ballot loop of lines 134–139 intersects, for each
of the `RadixBits` digit bits, the mask of lanes whose digit agrees with the
current lane's digit on that bit. -/

/-- Lane digits agree on the low `R` bits — the result of the `RadixBits`
rounds of `ballot(bit_set)` mask intersections (lines 134–139). -/
def bitsAgree (R a b : Nat) : Bool :=
  (List.range R).all fun j => a.testBit j == b.testBit j

/-- Validity bit of lane `j`. -/
def laneValid (lanes : List (Bool × Nat)) (j : Nat) : Bool :=
  (lanes.getD j (false, 0)).1

/-- Digit value held by lane `j`. -/
def laneDigit (lanes : List (Bool × Nat)) (j : Nat) : Nat :=
  (lanes.getD j (false, 0)).2

/-- The lane-index set of `same_digit_lanes_mask` as seen by a lane whose
digit is `dl`: valid lanes whose digit agrees with `dl` on all `R` ballot
rounds (lines 133–139). -/
def same_digit_lanes (R : Nat) (lanes : List (Bool × Nat)) (dl : Nat) : List Nat :=
  (List.range lanes.length).filter
    fun j => laneValid lanes j && bitsAgree R (laneDigit lanes j) dl

/-- Amount added by lane `l` to the shared counter of digit `d`
(lines 140–147): lane `l` adds `same_digit_count` (the population count of
its mask) to counter `digit` exactly when `prev_same_digit_count` (the
population count of mask bits strictly below `l`) is zero. -/
def lane_digit_add (R : Nat) (lanes : List (Bool × Nat)) (l d : Nat) : Nat :=
  let m := same_digit_lanes R lanes (laneDigit lanes l)
  if laneDigit lanes l = d ∧ m.countP (fun j => j < l) = 0 then m.length else 0

/-- Total added to digit `d`'s counter by one warp in one item round. -/
def warp_digit_count (R : Nat) (lanes : List (Bool × Nat)) (d : Nat) : Nat :=
  ((List.range lanes.length).map fun l => lane_digit_add R lanes l d).sum

theorem sum_map_range (f : Nat → Nat) (n : Nat) :
    ((List.range n).map f).sum = ∑ i ∈ Finset.range n, f i := by
  induction n with
  | zero => simp
  | succ n ih => simp [List.range_succ, Finset.sum_range_succ, ih]

theorem bitsAgree_iff (R a b : Nat) (ha : a < 2 ^ R) (hb : b < 2 ^ R) :
    bitsAgree R a b = true ↔ a = b := by
  constructor
  · intro h
    apply Nat.eq_of_testBit_eq
    intro j
    rcases Nat.lt_or_ge j R with hj | hj
    · have := List.all_eq_true.mp h j (List.mem_range.mpr hj)
      exact beq_iff_eq.mp this
    · rw [Nat.testBit_lt_two_pow (Nat.lt_of_lt_of_le ha (Nat.pow_le_pow_right (by norm_num) hj)),
        Nat.testBit_lt_two_pow (Nat.lt_of_lt_of_le hb (Nat.pow_le_pow_right (by norm_num) hj))]
  · intro h
    subst h
    apply List.all_eq_true.mpr
    intro j _
    exact beq_self_eq_true _

theorem sum_map_range_eq_single (n j c : Nat) (f : Nat → Nat) (hj : j < n)
    (hf : ∀ l, l < n → f l = if l = j then c else 0) :
    ((List.range n).map f).sum = c := by
  rw [sum_map_range]
  rw [Finset.sum_congr rfl (fun l hl => hf l (Finset.mem_range.mp hl))]
  rw [Finset.sum_ite_eq' (Finset.range n) j (fun _ => c)]
  exact if_pos (Finset.mem_range.mpr hj)

/-- Correctness of the ballot tally for one warp: when valid lanes form a
prefix of the warp (the striped layout guarantees this) and all digits fit
in `R` bits, the warp adds to counter `d` exactly the number of valid lanes
whose digit is `d` — each equal-digit run is added once, by its lowest lane,
and garbage digits of invalid lanes contribute nothing. -/
theorem warp_digit_count_eq (R : Nat) (lanes : List (Bool × Nat)) (d : Nat)
    (hpre : ∀ i j, i ≤ j → j < lanes.length →
      laneValid lanes j = true → laneValid lanes i = true)
    (hlt : ∀ j, j < lanes.length → laneDigit lanes j < 2 ^ R) :
    warp_digit_count R lanes d
      = ((List.range lanes.length).filter
          (fun j => laneValid lanes j && (laneDigit lanes j == d))).length := by
  set n := lanes.length with hn
  -- under the digit bound, the ballot mask of a lane with digit `dl` is the
  -- set of valid lanes whose digit equals `dl`
  have hmask : ∀ dl, dl < 2 ^ R → same_digit_lanes R lanes dl
      = (List.range n).filter (fun j => laneValid lanes j && (laneDigit lanes j == dl)) := by
    intro dl hdl
    unfold same_digit_lanes
    apply List.filter_congr
    intro j hj
    have hjn : j < n := List.mem_range.mp hj
    by_cases hv : laneValid lanes j = true
    · have hba : bitsAgree R (laneDigit lanes j) dl = (laneDigit lanes j == dl) := by
        by_cases heq : laneDigit lanes j = dl
        · simp [heq, (bitsAgree_iff R dl dl hdl hdl).mpr rfl]
        · have hfalse : bitsAgree R (laneDigit lanes j) dl = false := by
            apply Bool.eq_false_iff.mpr
            intro htrue
            exact heq ((bitsAgree_iff R _ dl (hlt j hjn) hdl).mp htrue)
          simp [hfalse, heq]
      simp only [hv, Bool.true_and, hba]
    · have hv' : laneValid lanes j = false := Bool.eq_false_iff.mpr hv
      simp [hv']
  set V := (List.range n).filter (fun j => laneValid lanes j && (laneDigit lanes j == d)) with hV
  rcases hcV : V with _ | ⟨j0, rest⟩
  · -- no valid lane holds digit d: every contribution is zero
    unfold warp_digit_count
    rw [← hn]
    have : ∀ l ∈ List.range n, lane_digit_add R lanes l d = 0 := by
      intro l hl
      have hln : l < n := List.mem_range.mp hl
      unfold lane_digit_add
      by_cases hdl : laneDigit lanes l = d
      · rw [hdl, hmask d (hdl ▸ hlt l hln), ← hV, hcV]
        simp
      · simp [hdl]
    rw [List.map_congr_left this]
    simp
  · -- j0 is the lowest valid lane with digit d; it alone adds, and it adds
    -- the full run length
    have hVsorted : List.Pairwise (· < ·) V := List.Pairwise.filter _ (List.pairwise_lt_range n)
    have hj0min : ∀ x ∈ rest, j0 < x := by
      rw [hcV] at hVsorted
      exact (List.pairwise_cons.mp hVsorted).1
    have hj0mem : j0 ∈ V := by rw [hcV]; exact List.mem_cons_self _ _
    have hj0prop := List.mem_filter.mp (hV ▸ hj0mem)
    have hj0n : j0 < n := List.mem_range.mp hj0prop.1
    have hj0valid : laneValid lanes j0 = true := by
      have := hj0prop.2
      simp only [Bool.and_eq_true, beq_iff_eq] at this
      exact this.1
    have hj0digit : laneDigit lanes j0 = d := by
      have := hj0prop.2
      simp only [Bool.and_eq_true, beq_iff_eq] at this
      exact this.2
    have hmin : ∀ x ∈ V, j0 ≤ x := by
      intro x hx
      rw [hcV] at hx
      rcases List.mem_cons.mp hx with h | h
      · omega
      · exact Nat.le_of_lt (hj0min x h)
    unfold warp_digit_count
    rw [← hn]
    apply sum_map_range_eq_single n j0 ((j0 :: rest).length) _ hj0n
    intro l hln
    unfold lane_digit_add
    by_cases heq : l = j0
    · subst heq
      rw [hj0digit, hmask d (hj0digit ▸ hlt l hln), ← hV]
      have hc0 : V.countP (fun j => decide (j < l)) = 0 := by
        apply List.countP_eq_zero.mpr
        intro x hx
        simp only [decide_eq_true_eq]
        exact Nat.not_lt.mpr (hmin x hx)
      simp only [hj0digit, hc0, hcV]
      simp only [List.countP_cons, List.length_cons, decide_eq_true_eq]
      simp
      intro x hx
      exact Nat.le_of_lt (hj0min x hx)
    · by_cases hdl : laneDigit lanes l = d
      · rw [hdl, hmask d (hdl ▸ hlt l hln), ← hV]
        have hj0lt : j0 < l := by
          rcases Nat.lt_or_ge j0 l with h | h
          · exact h
          · exfalso
            have hl_le : l ≤ j0 := by omega
            have hlvalid : laneValid lanes l = true := hpre l j0 hl_le hj0n hj0valid
            have hlmem : l ∈ V := by
              rw [hV]
              exact List.mem_filter.mpr ⟨List.mem_range.mpr hln, by simp [hlvalid, hdl]⟩
            have := hmin l hlmem
            omega
        have hcne : V.countP (fun j => decide (j < l)) ≠ 0 := by
          intro hc
          have := List.countP_eq_zero.mp hc j0 hj0mem
          simp only [decide_eq_true_eq] at this
          exact this hj0lt
        have hcond : ¬ (d = d ∧ V.countP (fun j => decide (j < l)) = 0) := by
          intro hcon
          exact hcne hcon.2
        rw [if_neg hcond, if_neg heq]
      · simp [hdl, if_neg heq]

/-! ### Stage 1: `fill_digit_counts` (lines 54–163) -/

/-- One warp's lanes in item round `i`, warp `w`, for the block at item
offset `off`.  Lane `lane` has flat thread id `w·ws + lane` and striped
position `pos = i·BS + flat_id` (line 132); it is valid iff `pos <
valid_count`, i.e. iff its global index is in range (line 133), and holds
the digit of its loaded key, or of the garbage register contents `g` when
the striped load left the register uninitialized. -/
def warp_lanes (keys : List Nat) (g : Nat → Nat) (bit crb off BS ws i w : Nat) :
    List (Bool × Nat) :=
  (List.range ws).map fun lane =>
    let pos := i * BS + (w * ws + lane)
    if off + pos < keys.length
    then (true, digitOf bit crb (keys.getD (off + pos) 0))
    else (false, digitOf bit crb (g (off + pos)))

/-- `fill_digit_counts` (lines 54–163): the count written to
`batch_digit_counts[b * radix_size + d]`, obtained by accumulating the
per-warp ballot tallies over all blocks of batch `b`, all item rounds and
all warps, then summing the per-warp shared counters (lines 154–162). -/
def fill_digit_counts (keys : List Nat) (g : Nat → Nat)
    (bit crb Rbits BS IPT ws bpfb fb : Nat) (b d : Nat) : Nat :=
  let ipb := BS * IPT
  let off0 := batch_block_offset bpfb fb b * ipb
  ((List.range (blocks_per_batch bpfb fb b)).map fun bi =>
    ((List.range IPT).map fun i =>
      ((List.range (BS / ws)).map fun w =>
        warp_digit_count Rbits
          (warp_lanes keys g bit crb (off0 + bi * ipb) BS ws i w) d).sum).sum).sum

/-- The in-range digit-`d` predicate on a global item index. -/
def idx_has_digit (keys : List Nat) (bit crb d : Nat) : Nat → Bool :=
  fun idx => decide (idx < keys.length) && (digitOf bit crb (keys.getD idx 0) == d)

theorem warp_lanes_length (keys : List Nat) (g : Nat → Nat)
    (bit crb off BS ws i w : Nat) :
    (warp_lanes keys g bit crb off BS ws i w).length = ws := by
  unfold warp_lanes
  simp

theorem warp_lanes_getD (keys : List Nat) (g : Nat → Nat)
    (bit crb off BS ws i w j : Nat) (hj : j < ws) :
    (warp_lanes keys g bit crb off BS ws i w).getD j (false, 0)
      = (if off + (i * BS + (w * ws + j)) < keys.length
         then (true, digitOf bit crb (keys.getD (off + (i * BS + (w * ws + j))) 0))
         else (false, digitOf bit crb (g (off + (i * BS + (w * ws + j)))))) := by
  unfold warp_lanes
  rw [List.getD_eq_getElem?_getD, List.getElem?_map, List.getElem?_range hj]
  rfl

/-- One warp's ballot tally equals the number of in-range indices with
digit `d` in the warp's striped index window. -/
theorem warp_count_slice (keys : List Nat) (g : Nat → Nat)
    (bit crb Rbits off BS ws i w d : Nat) (hcrb : crb ≤ Rbits) :
    warp_digit_count Rbits (warp_lanes keys g bit crb off BS ws i w) d
      = (List.range' (off + i * BS + w * ws) ws).countP
          (idx_has_digit keys bit crb d) := by
  set lanes := warp_lanes keys g bit crb off BS ws i w with hlanes
  have hlen : lanes.length = ws := warp_lanes_length keys g bit crb off BS ws i w
  have hvd : ∀ j, j < ws →
      (laneValid lanes j = decide (off + i * BS + w * ws + j < keys.length)
        ∧ laneDigit lanes j
          = (if off + i * BS + w * ws + j < keys.length
             then digitOf bit crb (keys.getD (off + i * BS + w * ws + j) 0)
             else digitOf bit crb (g (off + i * BS + w * ws + j)))) := by
    intro j hj
    have hidx : off + (i * BS + (w * ws + j)) = off + i * BS + w * ws + j := by ring
    unfold laneValid laneDigit
    rw [hlanes, warp_lanes_getD keys g bit crb off BS ws i w j hj, hidx]
    by_cases hc : off + i * BS + w * ws + j < keys.length
    · simp [hc]
    · simp [hc]
  rw [warp_digit_count_eq Rbits lanes d]
  · rw [hlen, ← List.countP_eq_length_filter,
      List.range'_eq_map_range (off + i * BS + w * ws) ws, List.countP_map]
    apply List.countP_congr
    intro j hj
    have hjws : j < ws := List.mem_range.mp hj
    rcases hvd j hjws with ⟨hv, hd⟩
    simp only [Function.comp_apply, idx_has_digit, hv, hd]
    by_cases hc : off + i * BS + w * ws + j < keys.length
    · simp [hc]
    · simp [hc]
  · intro a b hab hb hvalid
    have hbws : b < ws := hlen ▸ hb
    have haws : a < ws := Nat.lt_of_le_of_lt hab hbws
    rcases hvd b hbws with ⟨hvb, _⟩
    rcases hvd a haws with ⟨hva, _⟩
    rw [hvb] at hvalid
    rw [hva]
    have := of_decide_eq_true hvalid
    exact decide_eq_true (by omega)
  · intro j hj
    have hjws : j < ws := hlen ▸ hj
    rcases hvd j hjws with ⟨_, hd⟩
    rw [hd]
    have hle : 2 ^ crb ≤ 2 ^ Rbits := Nat.pow_le_pow_right (by norm_num) hcrb
    by_cases hc : off + i * BS + w * ws + j < keys.length
    · rw [if_pos hc]
      exact Nat.lt_of_lt_of_le (digitOf_lt bit crb _) hle
    · rw [if_neg hc]
      exact Nat.lt_of_lt_of_le (digitOf_lt bit crb _) hle

/-- Splitting a contiguous index window into `k` aligned sub-windows of
width `s` splits its count. -/
theorem sum_countP_range'_chunks (p : Nat → Bool) (a s k : Nat) :
    ((List.range k).map fun w => (List.range' (a + w * s) s).countP p).sum
      = (List.range' a (k * s)).countP p := by
  induction k with
  | zero => simp
  | succ k ih =>
    rw [List.range_succ, List.map_append, List.sum_append]
    have hsplit : List.range' a (k * s) ++ List.range' (a + k * s) s
        = List.range' a ((k + 1) * s) := by
      have := List.range'_append a (k * s) s 1
      simpa [Nat.add_comm, Nat.succ_mul] using this
    rw [← hsplit, List.countP_append, ← ih]
    simp

/-- Per-batch histogram correctness: for any garbage contents `g`, the count
`fill_digit_counts` accumulates for `(b, d)` is exactly the number of
in-range indices with digit `d` in the batch's assigned item slice. -/
theorem fill_digit_counts_eq (keys : List Nat) (g : Nat → Nat)
    (bit crb Rbits BS IPT ws bpfb fb b d : Nat)
    (hdvd : ws ∣ BS) (hcrb : crb ≤ Rbits) :
    fill_digit_counts keys g bit crb Rbits BS IPT ws bpfb fb b d
      = (List.range' (batch_block_offset bpfb fb b * (BS * IPT))
          (blocks_per_batch bpfb fb b * (BS * IPT))).countP
          (idx_has_digit keys bit crb d) := by
  unfold fill_digit_counts
  dsimp only
  set ipb := BS * IPT with hipb
  set off0 := batch_block_offset bpfb fb b * ipb with hoff0
  have hblock : ∀ off : Nat,
      ((List.range IPT).map fun i =>
        ((List.range (BS / ws)).map fun w =>
          warp_digit_count Rbits (warp_lanes keys g bit crb off BS ws i w) d).sum).sum
      = (List.range' off ipb).countP (idx_has_digit keys bit crb d) := by
    intro off
    have hround : ∀ i : Nat,
        ((List.range (BS / ws)).map fun w =>
          warp_digit_count Rbits (warp_lanes keys g bit crb off BS ws i w) d).sum
        = (List.range' (off + i * BS) BS).countP (idx_has_digit keys bit crb d) := by
      intro i
      have h1 : ∀ w ∈ List.range (BS / ws),
          warp_digit_count Rbits (warp_lanes keys g bit crb off BS ws i w) d
            = (List.range' (off + i * BS + w * ws) ws).countP
                (idx_has_digit keys bit crb d) := by
        intro w _
        exact warp_count_slice keys g bit crb Rbits off BS ws i w d hcrb
      rw [List.map_congr_left h1, sum_countP_range'_chunks]
      rw [Nat.div_mul_cancel hdvd]
    rw [List.map_congr_left (fun i _ => hround i), sum_countP_range'_chunks]
    rw [hipb, Nat.mul_comm IPT BS]
  have h2 : ∀ bi ∈ List.range (blocks_per_batch bpfb fb b),
      ((List.range IPT).map fun i =>
        ((List.range (BS / ws)).map fun w =>
          warp_digit_count Rbits (warp_lanes keys g bit crb (off0 + bi * ipb) BS ws i w) d).sum).sum
      = (List.range' (off0 + bi * ipb) ipb).countP (idx_has_digit keys bit crb d) := by
    intro bi _
    exact hblock (off0 + bi * ipb)
  rw [List.map_congr_left h2, sum_countP_range'_chunks]

theorem countP_flatMap_sum {α : Type} (l : List α) (f : α → List Nat) (p : Nat → Bool) :
    ((l.flatMap f).countP p) = (l.map fun a => (f a).countP p).sum := by
  induction l with
  | nil => simp
  | cons x t ih => simp [List.flatMap_cons, List.countP_append, ih]

theorem range'_flatMap_expand (ipb o n : Nat) :
    (List.range' o n).flatMap (fun t => List.range' (t * ipb) ipb)
      = List.range' (o * ipb) (n * ipb) := by
  induction n generalizing o with
  | zero => simp
  | succ n ih =>
    rw [List.range'_succ, List.flatMap_cons, ih (o + 1)]
    have : List.range' (o * ipb) ipb ++ List.range' (o * ipb + ipb) (n * ipb)
        = List.range' (o * ipb) (ipb + n * ipb) := by
      have := List.range'_append (o * ipb) ipb (n * ipb) 1
      simpa [Nat.add_comm] using this
    rw [show (o + 1) * ipb = o * ipb + ipb by ring, this]
    congr 1
    ring

/-- The concatenation of all batches' item ranges is exactly `[0, T·ipb)`. -/
theorem batches_item_ranges_eq (B bpfb fb T ipb : Nat) (h : ValidBatching B bpfb fb T) :
    (List.range B).flatMap
        (fun b => List.range' (batch_block_offset bpfb fb b * ipb)
          (blocks_per_batch bpfb fb b * ipb))
      = List.range' 0 (T * ipb) := by
  have hblocks := batches_flatMap_eq B bpfb fb T h
  have hexp := congrArg (fun l => l.flatMap (fun t => List.range' (t * ipb) ipb)) hblocks
  simp only at hexp
  rw [List.flatMap_assoc] at hexp
  rw [range'_flatMap_expand ipb 0 T] at hexp
  simp only [Nat.zero_mul] at hexp
  rw [← hexp]
  apply List.flatMap_congr
  intro b _
  exact (range'_flatMap_expand ipb _ _).symm

/-- Summing the slice counts over all digits recovers the in-range count. -/
theorem sum_countP_digits (l : List Nat) (keys : List Nat) (bit crb D : Nat)
    (hD : 2 ^ crb ≤ D) :
    ∑ d ∈ Finset.range D, l.countP (idx_has_digit keys bit crb d)
      = l.countP (fun idx => decide (idx < keys.length)) := by
  induction l with
  | nil => simp
  | cons x t ih =>
    simp only [List.countP_cons, Finset.sum_add_distrib, ih]
    congr 1
    by_cases hx : x < keys.length
    · have hdig : digitOf bit crb (keys.getD x 0) < D :=
        Nat.lt_of_lt_of_le (digitOf_lt bit crb _) hD
      have hpt : ∀ d, (if idx_has_digit keys bit crb d x = true then 1 else 0)
          = (if digitOf bit crb (keys.getD x 0) = d then 1 else 0) := by
        intro d
        by_cases hd : digitOf bit crb (keys.getD x 0) = d
        · simp [idx_has_digit, hx, hd]
        · simp [idx_has_digit, hx, hd]
      rw [Finset.sum_congr rfl (fun d _ => hpt d)]
      rw [Finset.sum_ite_eq (Finset.range D) (digitOf bit crb (keys.getD x 0)) (fun _ => 1)]
      rw [if_pos (Finset.mem_range.mpr hdig)]
      simp [hx]
    · simp [idx_has_digit, hx]

theorem countP_range'_lt (n L : Nat) (h : L ≤ n) :
    (List.range' 0 n).countP (fun idx => decide (idx < L)) = L := by
  have hsplit : List.range' 0 L ++ List.range' L (n - L) = List.range' 0 n := by
    have := List.range'_append 0 L (n - L) 1
    have hn : L + (n - L) = n := by omega
    simpa [Nat.add_comm, hn] using this
  rw [← hsplit, List.countP_append]
  have h1 : (List.range' 0 L).countP (fun idx => decide (idx < L)) = L := by
    have hall : ∀ a ∈ List.range' 0 L, (fun idx => decide (idx < L)) a = true := by
      intro a ha
      have := List.mem_range'_1.mp ha
      simp only [decide_eq_true_eq]
      omega
    rw [List.countP_eq_length.mpr hall, List.length_range']
  have h2 : (List.range' L (n - L)).countP (fun idx => decide (idx < L)) = 0 := by
    apply List.countP_eq_zero.mpr
    intro a ha
    have := List.mem_range'_1.mp ha
    simp only [decide_eq_true_eq]
    omega
  omega

/-- C3 — Histogram correctness with tail exclusion: for every input, bit
offset and window width (and any garbage register contents `g` left by the
guarded striped load), `fill_digit_counts` produces, in
`batch_digit_counts[b·radix_size + d]`, exactly the number of keys in the
batch's assigned item slice intersected with `[0, size)` whose digit in the
current window is `d` — items past the logical end contribute to no count —
and the counts summed over all batches and digits equal `size`. -/
theorem C3_histogram_correct (keys : List Nat) (g : Nat → Nat)
    (bit crb Rbits BS IPT ws bpfb fb B T : Nat)
    (hws : 0 < ws) (hdvd : ws ∣ BS) (hcrb : crb ≤ Rbits) (hRsz : 2 ^ Rbits ≤ BS)
    (hbat : ValidBatching B bpfb fb T) (hcover : keys.length ≤ T * (BS * IPT)) :
    (∀ b d, fill_digit_counts keys g bit crb Rbits BS IPT ws bpfb fb b d
        = (List.range' (batch_block_offset bpfb fb b * (BS * IPT))
            (blocks_per_batch bpfb fb b * (BS * IPT))).countP
            (idx_has_digit keys bit crb d))
    ∧ (∑ b ∈ Finset.range B, ∑ d ∈ Finset.range (2 ^ Rbits),
        fill_digit_counts keys g bit crb Rbits BS IPT ws bpfb fb b d) = keys.length := by
  have hper := fun b d => fill_digit_counts_eq keys g bit crb Rbits BS IPT ws bpfb fb b d
    hdvd hcrb
  refine ⟨hper, ?_⟩
  have hinner : ∀ b, (∑ d ∈ Finset.range (2 ^ Rbits),
      fill_digit_counts keys g bit crb Rbits BS IPT ws bpfb fb b d)
      = (List.range' (batch_block_offset bpfb fb b * (BS * IPT))
          (blocks_per_batch bpfb fb b * (BS * IPT))).countP
          (fun idx => decide (idx < keys.length)) := by
    intro b
    rw [Finset.sum_congr rfl (fun d _ => hper b d)]
    exact sum_countP_digits _ keys bit crb (2 ^ Rbits)
      (Nat.pow_le_pow_right (by norm_num) hcrb)
  rw [Finset.sum_congr rfl (fun b _ => hinner b)]
  rw [← sum_map_range (fun b => (List.range' (batch_block_offset bpfb fb b * (BS * IPT))
    (blocks_per_batch bpfb fb b * (BS * IPT))).countP (fun idx => decide (idx < keys.length))) B]
  rw [← countP_flatMap_sum (List.range B)
    (fun b => List.range' (batch_block_offset bpfb fb b * (BS * IPT))
      (blocks_per_batch bpfb fb b * (BS * IPT)))
    (fun idx => decide (idx < keys.length))]
  rw [batches_item_ranges_eq B bpfb fb T (BS * IPT) hbat]
  exact countP_range'_lt (T * (BS * IPT)) keys.length hcover

/-- Witness for C3: `keys = [1, 0, 3]`, one batch of two 2-item blocks, the
final block half-filled, with nonzero garbage `g`. -/
theorem C3_histogram_correct_witness :
    (∀ b d, fill_digit_counts [1, 0, 3] (fun _ => 1) 0 1 1 2 1 2 2 1 b d
        = (List.range' (batch_block_offset 2 1 b * (2 * 1))
            (blocks_per_batch 2 1 b * (2 * 1))).countP
            (idx_has_digit [1, 0, 3] 0 1 d))
    ∧ (∑ b ∈ Finset.range 1, ∑ d ∈ Finset.range (2 ^ 1),
        fill_digit_counts [1, 0, 3] (fun _ => 1) 0 1 1 2 1 2 2 1 b d)
        = ([1, 0, 3] : List Nat).length :=
  C3_histogram_correct [1, 0, 3] (fun _ => 1) 0 1 1 2 1 2 2 1 1 2
    (by decide) (by decide) (by decide) (by decide) ⟨by decide, by decide⟩ (by decide)

/-! ### Stages 2–3: `scan_batches` (lines 171–205) and `scan_digits`
(lines 207–220)

The block-wide exclusive prefix scan is an external primitive
(`rocprim::block_scan::exclusive_scan`); it is modelled from the spec at its
contract: an exclusive prefix sum with initial value 0 over the blocked
thread-major arrangement, with the carry-out total. -/

/-- Modelled from the spec: the missing `block_scan::exclusive_scan`
primitive — a sequential exclusive prefix sum with accumulator `acc`. -/
def exclusive_scan_list (acc : Nat) : List Nat → List Nat
  | [] => []
  | x :: xs => acc :: exclusive_scan_list (acc + x) xs

theorem exclusive_scan_list_length (acc : Nat) (l : List Nat) :
    (exclusive_scan_list acc l).length = l.length := by
  induction l generalizing acc with
  | nil => rfl
  | cons x xs ih => simp [exclusive_scan_list, ih]

theorem exclusive_scan_list_getD (acc : Nat) (l : List Nat) (i : Nat) (hi : i < l.length)
    (dflt : Nat) :
    (exclusive_scan_list acc l).getD i dflt = acc + (l.take i).sum := by
  induction l generalizing acc i with
  | nil => simp at hi
  | cons x xs ih =>
    cases i with
    | zero => simp [exclusive_scan_list]
    | succ i =>
      simp only [exclusive_scan_list, List.getD_cons_succ, List.take_succ_cons,
        List.sum_cons]
      rw [ih (acc + x) i (by simpa using hi)]
      ring

/-- The per-thread blocked load of `scan_batches` (lines 182–187): thread
`flat_id` holds `values[i] = batch_digit_counts[batch_id·radix_size + digit]`
for `batch_id = flat_id·ItemsPerThread + i` when `batch_id < batches`, else 0.
Flattened in `batch_id` order over all `cap = BlockSize·ItemsPerThread`
slots. -/
def scan_batches_values (bdc : Nat → Nat) (radix_size batches cap d : Nat) : List Nat :=
  (List.range cap).map fun batch_id =>
    if batch_id < batches then bdc (batch_id * radix_size + d) else 0

/-- `scan_batches` (lines 171–205), table part: the updated
`batch_digit_counts` table.  Entry `b·radix_size + d` (for `b < batches`) is
overwritten with the exclusive-scan value of slot `b` of digit `d`'s column;
other entries are untouched. -/
def scan_batches (bdc : Nat → Nat) (radix_size batches cap : Nat) : Nat → Nat :=
  fun k =>
    let b := k / radix_size
    let d := k % radix_size
    if b < batches
    then (exclusive_scan_list 0 (scan_batches_values bdc radix_size batches cap d)).getD b (bdc k)
    else bdc k

/-- `scan_batches` (lines 201–204), totals part: the carry-out total written
to `digit_counts[digit]` by thread 0. -/
def scan_batches_totals (bdc : Nat → Nat) (radix_size batches cap : Nat) : Nat → Nat :=
  fun d => (scan_batches_values bdc radix_size batches cap d).sum

/-- `scan_digits` (lines 207–220): one block of `radix_size` threads turns
`digit_counts` into its exclusive prefix sum in place. -/
def scan_digits (dc : Nat → Nat) (radix_size : Nat) : Nat → Nat :=
  fun d =>
    if d < radix_size
    then (exclusive_scan_list 0 ((List.range radix_size).map dc)).getD d (dc d)
    else dc d

theorem scan_batches_values_take (bdc : Nat → Nat) (radix_size batches cap d b : Nat)
    (hb : b ≤ batches) (hcap : batches ≤ cap) :
    ((scan_batches_values bdc radix_size batches cap d).take b).sum
      = ∑ b' ∈ Finset.range b, bdc (b' * radix_size + d) := by
  unfold scan_batches_values
  rw [← List.map_take, List.take_range, Nat.min_eq_left (by omega : b ≤ cap)]
  rw [sum_map_range]
  apply Finset.sum_congr rfl
  intro b' hb'
  have : b' < batches := by
    have := Finset.mem_range.mp hb'
    omega
  rw [if_pos this]

theorem scan_batches_entry_eq (bdc : Nat → Nat)
    (radix_size batches cap d b : Nat) (hcap : batches ≤ cap) (hd : d < radix_size)
    (hb : b < batches) :
    scan_batches bdc radix_size batches cap (b * radix_size + d)
      = ∑ b' ∈ Finset.range b, bdc (b' * radix_size + d) := by
  unfold scan_batches
  have h0 : 0 < radix_size := by omega
  have hdiv : (b * radix_size + d) / radix_size = b := by
    rw [Nat.mul_comm, Nat.mul_add_div h0, Nat.div_eq_of_lt hd]
    omega
  have hmod : (b * radix_size + d) % radix_size = d := by
    rw [Nat.mul_comm, Nat.mul_add_mod, Nat.mod_eq_of_lt hd]
  simp only [hdiv, hmod, if_pos hb]
  have hblen : b < (scan_batches_values bdc radix_size batches cap d).length := by
    unfold scan_batches_values
    simp only [List.length_map, List.length_range]
    omega
  rw [exclusive_scan_list_getD 0 _ b hblen]
  rw [Nat.zero_add]
  exact scan_batches_values_take bdc radix_size batches cap d b (Nat.le_of_lt hb) hcap

theorem scan_batches_totals_eq (bdc : Nat → Nat)
    (radix_size batches cap d : Nat) (hcap : batches ≤ cap) :
    scan_batches_totals bdc radix_size batches cap d
      = ∑ b' ∈ Finset.range batches, bdc (b' * radix_size + d) := by
  unfold scan_batches_totals scan_batches_values
  rw [sum_map_range]
  rw [← Finset.sum_subset (Finset.range_subset.mpr hcap)
    (fun x _ hnx => if_neg (fun hlt => hnx (Finset.mem_range.mpr hlt)))]
  apply Finset.sum_congr rfl
  intro b hb
  exact if_pos (Finset.mem_range.mp hb)

theorem scan_digits_eq (dc : Nat → Nat) (R d : Nat) (hd : d < R) :
    scan_digits dc R d = ∑ d' ∈ Finset.range d, dc d' := by
  unfold scan_digits
  rw [if_pos hd]
  have hdlen : d < ((List.range R).map dc).length := by simp [hd]
  rw [exclusive_scan_list_getD 0 _ d hdlen]
  rw [Nat.zero_add, ← List.map_take, List.take_range,
    Nat.min_eq_left (Nat.le_of_lt hd), sum_map_range]

/-- C6 — Batch scan postcondition: for every digit `d < radix_size` and
`batches ≤ BlockSize·ItemsPerThread`, after `scan_batches` the table entry
`batch_digit_counts[b·radix_size + d]` holds the exclusive prefix sum (with
initial value 0, ordered by batch index) of the pre-scan column, and
`digit_counts[d]` holds the column total over all `b < batches`. -/
theorem C6_scan_batches_postcondition (bdc : Nat → Nat)
    (radix_size batches cap d : Nat) (hcap : batches ≤ cap) (hd : d < radix_size) :
    (∀ b, b < batches →
      scan_batches bdc radix_size batches cap (b * radix_size + d)
        = ∑ b' ∈ Finset.range b, bdc (b' * radix_size + d))
    ∧ scan_batches_totals bdc radix_size batches cap d
        = ∑ b' ∈ Finset.range batches, bdc (b' * radix_size + d) :=
  ⟨fun b hb => scan_batches_entry_eq bdc radix_size batches cap d b hcap hd hb,
   scan_batches_totals_eq bdc radix_size batches cap d hcap⟩

/-- Witness for C6 on a concrete 3-batch table with stride 4. -/
theorem C6_scan_batches_postcondition_witness :
    (∀ b, b < 3 →
      scan_batches (fun k => k + 2) 4 3 4 (b * 4 + 1)
        = ∑ b' ∈ Finset.range b, ((fun k => k + 2) (b' * 4 + 1)))
    ∧ scan_batches_totals (fun k => k + 2) 4 3 4 1
        = ∑ b' ∈ Finset.range 3, ((fun k => k + 2) (b' * 4 + 1)) :=
  C6_scan_batches_postcondition (fun k => k + 2) 4 3 4 1 (by decide) (by decide)

/-! ### Pipeline composition of stages 1–3 -/

/-- The `batch_digit_counts` table produced by stage 1, in its linear
`b·radix_size + d` device layout. -/
def stage1_table (keys : List Nat) (g : Nat → Nat)
    (bit crb Rbits BS IPT ws bpfb fb : Nat) : Nat → Nat :=
  fun k => fill_digit_counts keys g bit crb Rbits BS IPT ws bpfb fb
    (k / 2 ^ Rbits) (k % 2 ^ Rbits)

/-- `digit_counts` after stage 2 (`scan_batches` on the stage-1 table). -/
def pipeline_digit_counts (keys : List Nat) (g : Nat → Nat)
    (bit crb Rbits BS IPT ws bpfb fb B cap : Nat) : Nat → Nat :=
  scan_batches_totals (stage1_table keys g bit crb Rbits BS IPT ws bpfb fb)
    (2 ^ Rbits) B cap

/-- `digit_starts` after stage 3 (`scan_digits` on the stage-2 totals). -/
def pipeline_digit_starts (keys : List Nat) (g : Nat → Nat)
    (bit crb Rbits BS IPT ws bpfb fb B cap : Nat) : Nat → Nat :=
  scan_digits (pipeline_digit_counts keys g bit crb Rbits BS IPT ws bpfb fb B cap)
    (2 ^ Rbits)

theorem countP_range_getD (keys : List Nat) (q : Nat → Bool) :
    (List.range keys.length).countP (fun idx => q (keys.getD idx 0)) = keys.countP q := by
  induction keys with
  | nil => simp
  | cons x t ih =>
    rw [List.length_cons, List.range_succ_eq_map, List.countP_cons, List.countP_cons]
    rw [List.countP_map]
    have hcongr : ∀ idx ∈ List.range t.length,
        (((fun idx => q ((x :: t).getD idx 0)) ∘ Nat.succ) idx = true
          ↔ (fun idx => q (t.getD idx 0)) idx = true) := by
      intro idx _
      simp [List.getD_cons_succ]
    rw [List.countP_congr hcongr, ih]
    simp

theorem slice_count_all (keys : List Nat) (bit crb d n : Nat) (hn : keys.length ≤ n) :
    (List.range' 0 n).countP (idx_has_digit keys bit crb d)
      = keys.countP (fun k => digitOf bit crb k == d) := by
  set L := keys.length with hL
  have hsplit : List.range' 0 L ++ List.range' L (n - L) = List.range' 0 n := by
    have := List.range'_append 0 L (n - L) 1
    have hn' : L + (n - L) = n := by omega
    simpa [Nat.add_comm, hn'] using this
  rw [← hsplit, List.countP_append]
  have h2 : (List.range' L (n - L)).countP (idx_has_digit keys bit crb d) = 0 := by
    apply List.countP_eq_zero.mpr
    intro a ha
    have := List.mem_range'_1.mp ha
    simp only [idx_has_digit, Bool.and_eq_true, decide_eq_true_eq]
    intro hcon
    omega
  have h1 : (List.range' 0 L).countP (idx_has_digit keys bit crb d)
      = keys.countP (fun k => digitOf bit crb k == d) := by
    rw [show List.range' 0 L = List.range L from (List.range_eq_range' L).symm]
    have hcongr : ∀ idx ∈ List.range L, (idx_has_digit keys bit crb d idx = true
        ↔ (fun idx => (fun k => digitOf bit crb k == d) (keys.getD idx 0)) idx = true) := by
      intro idx hidx
      have hlt : idx < keys.length := hL ▸ List.mem_range.mp hidx
      simp [idx_has_digit, hlt]
    rw [List.countP_congr hcongr, countP_range_getD keys (fun k => digitOf bit crb k == d)]
  omega

theorem sum_slices_countP (B bpfb fb T ipb : Nat) (h : ValidBatching B bpfb fb T)
    (p : Nat → Bool) :
    ∑ b ∈ Finset.range B, (List.range' (batch_block_offset bpfb fb b * ipb)
        (blocks_per_batch bpfb fb b * ipb)).countP p
      = (List.range' 0 (T * ipb)).countP p := by
  rw [← sum_map_range (fun b => (List.range' (batch_block_offset bpfb fb b * ipb)
    (blocks_per_batch bpfb fb b * ipb)).countP p) B]
  rw [← countP_flatMap_sum (List.range B)
    (fun b => List.range' (batch_block_offset bpfb fb b * ipb)
      (blocks_per_batch bpfb fb b * ipb)) p]
  rw [batches_item_ranges_eq B bpfb fb T ipb h]

/-- After stage 2, `digit_counts[d]` is the total number of keys with digit
`d`. -/
theorem pipeline_digit_counts_eq (keys : List Nat) (g : Nat → Nat)
    (bit crb Rbits BS IPT ws bpfb fb B T cap d : Nat)
    (hdvd : ws ∣ BS) (hcrb : crb ≤ Rbits)
    (hbat : ValidBatching B bpfb fb T) (hcover : keys.length ≤ T * (BS * IPT))
    (hcap : B ≤ cap) (hd : d < 2 ^ Rbits) :
    pipeline_digit_counts keys g bit crb Rbits BS IPT ws bpfb fb B cap d
      = keys.countP (fun k => digitOf bit crb k == d) := by
  unfold pipeline_digit_counts
  rw [scan_batches_totals_eq _ _ _ _ _ hcap]
  have hentry : ∀ b, stage1_table keys g bit crb Rbits BS IPT ws bpfb fb
      (b * 2 ^ Rbits + d)
      = (List.range' (batch_block_offset bpfb fb b * (BS * IPT))
          (blocks_per_batch bpfb fb b * (BS * IPT))).countP
          (idx_has_digit keys bit crb d) := by
    intro b
    unfold stage1_table
    have h0 : 0 < 2 ^ Rbits := Nat.pos_pow_of_pos Rbits (by norm_num)
    have hdiv : (b * 2 ^ Rbits + d) / 2 ^ Rbits = b := by
      rw [Nat.mul_comm, Nat.mul_add_div h0, Nat.div_eq_of_lt hd]
      omega
    have hmod : (b * 2 ^ Rbits + d) % 2 ^ Rbits = d := by
      rw [Nat.mul_comm, Nat.mul_add_mod, Nat.mod_eq_of_lt hd]
    rw [hdiv, hmod]
    exact fill_digit_counts_eq keys g bit crb Rbits BS IPT ws bpfb fb b d hdvd hcrb
  rw [Finset.sum_congr rfl (fun b _ => hentry b)]
  rw [sum_slices_countP B bpfb fb T (BS * IPT) hbat]
  exact slice_count_all keys bit crb d (T * (BS * IPT)) hcover

/-- After stage 3, `digit_starts[d]` is the number of keys with digit below
`d`. -/
theorem pipeline_digit_starts_eq (keys : List Nat) (g : Nat → Nat)
    (bit crb Rbits BS IPT ws bpfb fb B T cap d : Nat)
    (hdvd : ws ∣ BS) (hcrb : crb ≤ Rbits)
    (hbat : ValidBatching B bpfb fb T) (hcover : keys.length ≤ T * (BS * IPT))
    (hcap : B ≤ cap) (hd : d < 2 ^ Rbits) :
    pipeline_digit_starts keys g bit crb Rbits BS IPT ws bpfb fb B cap d
      = ∑ d' ∈ Finset.range d, keys.countP (fun k => digitOf bit crb k == d') := by
  unfold pipeline_digit_starts
  rw [scan_digits_eq _ _ _ hd]
  apply Finset.sum_congr rfl
  intro d' hd'
  have : d' < 2 ^ Rbits := by
    have := Finset.mem_range.mp hd'
    omega
  exact pipeline_digit_counts_eq keys g bit crb Rbits BS IPT ws bpfb fb B T cap d'
    hdvd hcrb hbat hcover hcap this

theorem sum_keyCount (keys : List Nat) (bit crb D : Nat) (hD : 2 ^ crb ≤ D) :
    ∑ d ∈ Finset.range D, keys.countP (fun k => digitOf bit crb k == d)
      = keys.length := by
  induction keys with
  | nil => simp
  | cons x t ih =>
    simp only [List.countP_cons, Finset.sum_add_distrib, ih, List.length_cons]
    congr 1
    have hdig : digitOf bit crb x < D := Nat.lt_of_lt_of_le (digitOf_lt bit crb x) hD
    have hpt : ∀ d, (if ((fun k => digitOf bit crb k == d) x) = true then 1 else 0)
        = (if digitOf bit crb x = d then 1 else 0) := by
      intro d
      by_cases hd : digitOf bit crb x = d
      · simp [hd]
      · simp [hd]
    rw [Finset.sum_congr rfl (fun d _ => hpt d)]
    rw [Finset.sum_ite_eq (Finset.range D) (digitOf bit crb x) (fun _ => 1)]
    rw [if_pos (Finset.mem_range.mpr hdig)]

theorem prefix_intervals_exists (f : Nat → Nat) (R q : Nat)
    (hq : q < ∑ d ∈ Finset.range R, f d) :
    ∃ d, d < R ∧ (∑ d' ∈ Finset.range d, f d') ≤ q
      ∧ q < (∑ d' ∈ Finset.range d, f d') + f d := by
  induction R with
  | zero => simp at hq
  | succ R ih =>
    by_cases hq' : q < ∑ d ∈ Finset.range R, f d
    · rcases ih hq' with ⟨d, hd, hlo, hhi⟩
      exact ⟨d, Nat.lt_succ_of_lt hd, hlo, hhi⟩
    · refine ⟨R, Nat.lt_succ_self R, by omega, ?_⟩
      rw [Finset.sum_range_succ] at hq
      omega

theorem prefix_sums_mono (f : Nat → Nat) (d1 d2 : Nat) (h : d1 < d2) :
    (∑ d' ∈ Finset.range d1, f d') + f d1 ≤ ∑ d' ∈ Finset.range d2, f d' := by
  rw [← Finset.sum_range_succ]
  exact Finset.sum_le_sum_of_subset (Finset.range_subset.mpr h)

/-- C4 — Partition invariant: for every input whose pre-scan counts are
produced by stage 1, after `scan_batches` and `scan_digits` the `radix_size`
destination ranges `[DigitStarts[d], DigitStarts[d] + DigitCounts[d])` are
pairwise disjoint and their union is exactly `[0, size)`. -/
theorem C4_partition_invariant (keys : List Nat) (g : Nat → Nat)
    (bit crb Rbits BS IPT ws bpfb fb B T cap : Nat)
    (hws : 0 < ws) (hdvd : ws ∣ BS) (hcrb : crb ≤ Rbits) (hRsz : 2 ^ Rbits ≤ BS)
    (hbat : ValidBatching B bpfb fb T) (hcover : keys.length ≤ T * (BS * IPT))
    (hcap : B ≤ cap) :
    (∀ d1 d2 q, d1 < 2 ^ Rbits → d2 < 2 ^ Rbits → d1 ≠ d2 →
      ¬ ((pipeline_digit_starts keys g bit crb Rbits BS IPT ws bpfb fb B cap d1 ≤ q
          ∧ q < pipeline_digit_starts keys g bit crb Rbits BS IPT ws bpfb fb B cap d1
              + pipeline_digit_counts keys g bit crb Rbits BS IPT ws bpfb fb B cap d1)
        ∧ (pipeline_digit_starts keys g bit crb Rbits BS IPT ws bpfb fb B cap d2 ≤ q
          ∧ q < pipeline_digit_starts keys g bit crb Rbits BS IPT ws bpfb fb B cap d2
              + pipeline_digit_counts keys g bit crb Rbits BS IPT ws bpfb fb B cap d2)))
    ∧ (∀ q, q < keys.length ↔ ∃ d, d < 2 ^ Rbits
        ∧ pipeline_digit_starts keys g bit crb Rbits BS IPT ws bpfb fb B cap d ≤ q
        ∧ q < pipeline_digit_starts keys g bit crb Rbits BS IPT ws bpfb fb B cap d
            + pipeline_digit_counts keys g bit crb Rbits BS IPT ws bpfb fb B cap d) := by
  have hcrbD : 2 ^ crb ≤ 2 ^ Rbits := Nat.pow_le_pow_right (by norm_num) hcrb
  set C := fun d => keys.countP (fun k => digitOf bit crb k == d) with hC
  have hds : ∀ d, d < 2 ^ Rbits →
      pipeline_digit_starts keys g bit crb Rbits BS IPT ws bpfb fb B cap d
        = ∑ d' ∈ Finset.range d, C d' :=
    fun d hd => pipeline_digit_starts_eq keys g bit crb Rbits BS IPT ws bpfb fb B T cap d
      hdvd hcrb hbat hcover hcap hd
  have hdc : ∀ d, d < 2 ^ Rbits →
      pipeline_digit_counts keys g bit crb Rbits BS IPT ws bpfb fb B cap d = C d :=
    fun d hd => pipeline_digit_counts_eq keys g bit crb Rbits BS IPT ws bpfb fb B T cap d
      hdvd hcrb hbat hcover hcap hd
  have htot : ∑ d ∈ Finset.range (2 ^ Rbits), C d = keys.length :=
    sum_keyCount keys bit crb (2 ^ Rbits) hcrbD
  constructor
  · intro d1 d2 q hd1 hd2 hne ⟨⟨h1lo, h1hi⟩, ⟨h2lo, h2hi⟩⟩
    rw [hds d1 hd1] at h1lo
    rw [hds d1 hd1, hdc d1 hd1] at h1hi
    rw [hds d2 hd2] at h2lo
    rw [hds d2 hd2, hdc d2 hd2] at h2hi
    rcases Nat.lt_or_ge d1 d2 with hlt | hge
    · have := prefix_sums_mono C d1 d2 hlt
      omega
    · have hlt : d2 < d1 := Nat.lt_of_le_of_ne hge (fun hh => hne hh.symm)
      have := prefix_sums_mono C d2 d1 hlt
      omega
  · intro q
    constructor
    · intro hq
      rcases prefix_intervals_exists C (2 ^ Rbits) q (htot ▸ hq) with ⟨d, hd, hlo, hhi⟩
      exact ⟨d, hd, by rw [hds d hd]; exact hlo, by rw [hds d hd, hdc d hd]; exact hhi⟩
    · rintro ⟨d, hd, hlo, hhi⟩
      rw [hds d hd, hdc d hd] at hhi
      have := prefix_sums_mono C d (2 ^ Rbits) hd
      omega

/-- Witness for C4 at the C3 witness configuration. -/
theorem C4_partition_invariant_witness :
    (∀ d1 d2 q, d1 < 2 ^ 1 → d2 < 2 ^ 1 → d1 ≠ d2 →
      ¬ ((pipeline_digit_starts [1, 0, 3] (fun _ => 1) 0 1 1 2 1 2 2 1 1 4 d1 ≤ q
          ∧ q < pipeline_digit_starts [1, 0, 3] (fun _ => 1) 0 1 1 2 1 2 2 1 1 4 d1
              + pipeline_digit_counts [1, 0, 3] (fun _ => 1) 0 1 1 2 1 2 2 1 1 4 d1)
        ∧ (pipeline_digit_starts [1, 0, 3] (fun _ => 1) 0 1 1 2 1 2 2 1 1 4 d2 ≤ q
          ∧ q < pipeline_digit_starts [1, 0, 3] (fun _ => 1) 0 1 1 2 1 2 2 1 1 4 d2
              + pipeline_digit_counts [1, 0, 3] (fun _ => 1) 0 1 1 2 1 2 2 1 1 4 d2)))
    ∧ (∀ q, q < ([1, 0, 3] : List Nat).length ↔ ∃ d, d < 2 ^ 1
        ∧ pipeline_digit_starts [1, 0, 3] (fun _ => 1) 0 1 1 2 1 2 2 1 1 4 d ≤ q
        ∧ q < pipeline_digit_starts [1, 0, 3] (fun _ => 1) 0 1 1 2 1 2 2 1 1 4 d
            + pipeline_digit_counts [1, 0, 3] (fun _ => 1) 0 1 1 2 1 2 2 1 1 4 d) :=
  C4_partition_invariant [1, 0, 3] (fun _ => 1) 0 1 1 2 1 2 2 1 1 2 4
    (by decide) (by decide) (by decide) (by decide) ⟨by decide, by decide⟩
    (by decide) (by decide)

/-! ### Stage 4: `sort_and_scatter` (lines 249–443)

Key-value items are modelled as pairs `(bit key, payload)` over an arbitrary
payload type `α`; the bit codec (external `radix_key_codec`) is an
order-preserving bijection onto `w`-bit patterns, so the pass is modelled
directly on encoded bit keys (`decode ∘ encode = id` by the codec contract).
The striped store order of the scatter loop is modelled in ascending
position order; the destinations are proved pairwise distinct, so the store
order is immaterial. -/

/-- `valid_count` of the block at item offset `off` (lines 337–349). -/
def valid_count (size off ipb : Nat) : Nat :=
  if off + ipb ≤ size then ipb else size - off

/-- The loaded tile (lines 334–358): the in-range items followed by padding
holding the sentinel bit key `bit_key_type(-1)` (all ones at bit-key width
`w`, line 351) and unspecified garbage payload `padv` (the guarded value
load leaves the tail registers uninitialized). -/
def block_tile {α : Type} (items : List (Nat × α)) (padv : α) (off ipb w : Nat) :
    List (Nat × α) :=
  let t := (items.drop off).take ipb
  t ++ List.replicate (ipb - t.length) (2 ^ w - 1, padv)

/-- Modelled from the spec: the missing `block_radix_sort::sort` primitive
invoked through the `sort_block` wrappers (lines 224–247 and 372) — a stable
sort by the digit window `[bit, bit + crb)`.  The unique stable sort by
digit is the concatenation, in digit order, of the equal-digit
subsequences.  The with-values overload co-sorts the payload; the
payload-free overload is the same function at a trivial payload. -/
def sort_block {α : Type} (bit crb : Nat) (tile : List (Nat × α)) : List (Nat × α) :=
  (List.range (2 ^ crb)).flatMap fun dd => tile.filter fun kv => digitOf bit crb kv.1 == dd

/-- `storage.starts[d]` after the head-flag pass (lines 365–400): the
position of the first item of digit `d` in the block's sorted sequence,
defaulting to `valid_count`; the store is into an `unsigned short`
(line 302), hence the `% 65536`. -/
def starts_of {α : Type} (bit crb vc : Nat) (sorted : List (Nat × α)) (d : Nat) : Nat :=
  ((sorted.findIdx? (fun kv => digitOf bit crb kv.1 == d)).getD vc) % 65536

/-- `storage.ends[d]` after the tail-flag pass (lines 365–400): the position
of the last item of digit `d`, defaulting to `valid_count`; also stored in
an `unsigned short`. -/
def ends_of {α : Type} (bit crb vc : Nat) (sorted : List (Nat × α)) (d : Nat) : Nat :=
  (((sorted.reverse.findIdx? (fun kv => digitOf bit crb kv.1 == d)).map
      (fun p => sorted.length - 1 - p)).getD vc) % 65536

/-- The scatter loop (lines 412–425): every in-range sorted position
`pos < valid_count` writes its key (and paired value) to
`dst = pos - starts[digit] + block_starts[digit]`. -/
def block_scatter_writes {α : Type} (bit crb vc : Nat) (bs : Nat → Nat)
    (sorted : List (Nat × α)) : List (Nat × (Nat × α)) :=
  (sorted.take vc).enum.map fun pe =>
    (pe.1 - starts_of bit crb vc sorted (digitOf bit crb pe.2.1)
       + bs (digitOf bit crb pe.2.1), pe.2)

/-- The running-offset update (lines 429–439): after the block,
`block_starts[d]` advances by `min(valid_count - 1, ends[d]) - starts[d] + 1`
whenever `starts[d] < valid_count`. -/
def advance_block_starts {α : Type} (bit crb vc : Nat) (bs : Nat → Nat)
    (sorted : List (Nat × α)) : Nat → Nat :=
  fun d =>
    if starts_of bit crb vc sorted d < vc
    then bs d + (min (vc - 1) (ends_of bit crb vc sorted d)
                  - starts_of bit crb vc sorted d + 1)
    else bs d

/-- One iteration of the per-batch serial block loop (lines 332–442):
load + pad, stable local sort, scatter, and running-offset advance. -/
def sort_and_scatter_block {α : Type} (items : List (Nat × α)) (padv : α)
    (bit crb w off ipb : Nat) (bs : Nat → Nat) :
    List (Nat × (Nat × α)) × (Nat → Nat) :=
  let vc := valid_count items.length off ipb
  let sorted := sort_block bit crb (block_tile items padv off ipb w)
  (block_scatter_writes bit crb vc bs sorted,
   advance_block_starts bit crb vc bs sorted)

/-- The batch's serial loop over its `n` assigned blocks, threading the
shared `block_starts` running offsets; returns the batch's write list. -/
def sort_and_scatter_batch {α : Type} (items : List (Nat × α)) (padv : α)
    (bit crb w ipb : Nat) : Nat → Nat → (Nat → Nat) → List (Nat × (Nat × α))
  | 0, _, _ => []
  | n + 1, off, bs =>
      (sort_and_scatter_block items padv bit crb w off ipb bs).1
        ++ sort_and_scatter_batch items padv bit crb w ipb n (off + ipb)
             (sort_and_scatter_block items padv bit crb w off ipb bs).2

/-- `sort_and_scatter` (lines 249–443): all batches of one pass.  Batch `b`
initializes its running offsets to
`digit_starts[d] + batch_digit_starts[b·radix_size + d]` (lines 313–316). -/
def sort_and_scatter {α : Type} (items : List (Nat × α)) (padv : α)
    (bit crb w Rbits BS IPT bpfb fb B : Nat)
    (digit_starts batch_digit_starts : Nat → Nat) : List (Nat × (Nat × α)) :=
  (List.range B).flatMap fun b =>
    sort_and_scatter_batch items padv bit crb w (BS * IPT)
      (blocks_per_batch bpfb fb b)
      (batch_block_offset bpfb fb b * (BS * IPT))
      (fun d => digit_starts d + batch_digit_starts (b * 2 ^ Rbits + d))

/-- Applying a write list to the output buffer (the device stores
`keys_output[dst] = …; values_output[dst] = …`, lines 419–423). -/
def apply_writes {α : Type} (out : List (Nat × α)) (ws2 : List (Nat × (Nat × α))) :
    List (Nat × α) :=
  ws2.foldl (fun o pe => o.set pe.1 pe.2) out

/-! #### Sentinel arithmetic -/

theorem two_pow_sub_one_div (w bit : Nat) :
    (2 ^ w - 1) / 2 ^ bit = 2 ^ (w - bit) - 1 := by
  rcases le_or_lt bit w with h | h
  · have h2 : 2 ^ w = 2 ^ (w - bit) * 2 ^ bit := by
      rw [← Nat.pow_add]
      congr 1
      omega
    have hb1 : 1 ≤ (2 : Nat) ^ bit := Nat.one_le_two_pow
    have hn1 : 1 ≤ (2 : Nat) ^ (w - bit) := Nat.one_le_two_pow
    have hw1 : 1 ≤ (2 : Nat) ^ w := Nat.one_le_two_pow
    have hexp : 2 ^ w - 1 = 2 ^ bit * (2 ^ (w - bit) - 1) + (2 ^ bit - 1) := by
      have h2' : ((2 : ℤ)) ^ w = 2 ^ (w - bit) * 2 ^ bit := by exact_mod_cast h2
      zify [hw1, hb1, hn1]
      linear_combination h2'
    rw [hexp, Nat.mul_add_div (by positivity), Nat.div_eq_of_lt (by omega)]
    omega
  · have hw1 : 1 ≤ (2 : Nat) ^ w := Nat.one_le_two_pow
    have h1 : 2 ^ w - 1 < 2 ^ bit := by
      have := Nat.pow_le_pow_right (show 1 ≤ 2 by norm_num) (Nat.le_of_lt h)
      omega
    rw [Nat.div_eq_of_lt h1]
    have hwb : w - bit = 0 := by omega
    rw [hwb]
    simp

theorem two_pow_sub_one_mod (n c : Nat) :
    (2 ^ n - 1) % 2 ^ c = 2 ^ min n c - 1 := by
  rcases le_or_lt n c with h | h
  · rw [Nat.min_eq_left h]
    apply Nat.mod_eq_of_lt
    have h1 := Nat.pow_le_pow_right (show 1 ≤ 2 by norm_num) h
    have h2 : 1 ≤ (2 : Nat) ^ n := Nat.one_le_two_pow
    omega
  · rw [Nat.min_eq_right (Nat.le_of_lt h)]
    have h2 : 2 ^ n = 2 ^ (n - c) * 2 ^ c := by
      rw [← Nat.pow_add]
      congr 1
      omega
    have hb1 : 1 ≤ (2 : Nat) ^ c := Nat.one_le_two_pow
    have hn1 : 1 ≤ (2 : Nat) ^ (n - c) := Nat.one_le_two_pow
    have hm1 : 1 ≤ (2 : Nat) ^ n := Nat.one_le_two_pow
    have hexp : 2 ^ n - 1 = (2 ^ c - 1) + (2 ^ (n - c) - 1) * 2 ^ c := by
      have h2' : ((2 : ℤ)) ^ n = 2 ^ (n - c) * 2 ^ c := by exact_mod_cast h2
      zify [hm1, hb1, hn1]
      linear_combination h2'
    rw [hexp, Nat.add_mul_mod_self_right]
    apply Nat.mod_eq_of_lt
    omega

/-- Every `w`-bit key's digit is at most the sentinel's digit — the all-ones
padding key sorts last among the block's items. -/
theorem digitOf_le_sentinel (bit crb w k : Nat) (hk : k < 2 ^ w) :
    digitOf bit crb k ≤ digitOf bit crb (2 ^ w - 1) := by
  rw [digitOf_eq_mod, digitOf_eq_mod, two_pow_sub_one_div, two_pow_sub_one_mod]
  have hdiv : k / 2 ^ bit < 2 ^ (w - bit) := by
    apply Nat.div_lt_of_lt_mul
    calc k < 2 ^ w := hk
      _ ≤ 2 ^ ((w - bit) + bit) := Nat.pow_le_pow_right (by norm_num) (by omega)
      _ = 2 ^ bit * 2 ^ (w - bit) := by rw [Nat.pow_add]; ring
  rcases le_or_lt (w - bit) crb with h | h
  · rw [Nat.min_eq_left h]
    have := Nat.mod_le (k / 2 ^ bit) (2 ^ crb)
    omega
  · rw [Nat.min_eq_right (Nat.le_of_lt h)]
    have := Nat.mod_lt (k / 2 ^ bit) (show 0 < 2 ^ crb by positivity)
    omega

/-! #### Structure of the stable digit sort -/

/-- The equal-digit subsequence of digit `d`. -/
def digit_filter {α : Type} (bit crb d : Nat) (t : List (Nat × α)) : List (Nat × α) :=
  t.filter fun kv => digitOf bit crb kv.1 == d

/-- Number of items of digit `d`. -/
def digit_cnt {α : Type} (bit crb d : Nat) (t : List (Nat × α)) : Nat :=
  (digit_filter bit crb d t).length

/-- Number of items of digit below `d`. -/
def digit_pref {α : Type} (bit crb d : Nat) (t : List (Nat × α)) : Nat :=
  ∑ d' ∈ Finset.range d, digit_cnt bit crb d' t

theorem flatMap_range_split {β : Type} (f : Nat → List β) (m n : Nat) (h : m ≤ n) :
    (List.range n).flatMap f
      = (List.range m).flatMap f ++ (List.range' m (n - m)).flatMap f := by
  rw [← List.flatMap_append]
  congr 1
  rw [List.range_eq_range', List.range_eq_range']
  have happ := List.range'_append 0 m (n - m) 1
  simp only [Nat.one_mul, Nat.zero_add] at happ
  rw [happ]
  congr 1
  omega

/-- `sort_block` splits around any digit `d` into the lower-digit segment,
the digit-`d` run, and the higher-digit segment. -/
theorem sort_block_decomp {α : Type} (bit crb d : Nat) (t : List (Nat × α))
    (hd : d < 2 ^ crb) :
    sort_block bit crb t
      = ((List.range d).flatMap (fun dd => digit_filter bit crb dd t)
          ++ digit_filter bit crb d t)
        ++ (List.range' (d + 1) (2 ^ crb - (d + 1))).flatMap
            (fun dd => digit_filter bit crb dd t) := by
  unfold sort_block digit_filter
  rw [flatMap_range_split _ (d + 1) (2 ^ crb) hd]
  congr 1
  rw [List.range_succ, List.flatMap_append]
  simp

theorem mem_low_segment {α : Type} {bit crb d : Nat} {t : List (Nat × α)}
    {kv : Nat × α}
    (h : kv ∈ (List.range d).flatMap (fun dd => digit_filter bit crb dd t)) :
    digitOf bit crb kv.1 < d := by
  rcases List.mem_flatMap.mp h with ⟨dd, hdd, hkv⟩
  have h1 := List.mem_range.mp hdd
  have h2 := (List.mem_filter.mp hkv).2
  have := beq_iff_eq.mp h2
  omega

theorem mem_high_segment {α : Type} {bit crb d m : Nat} {t : List (Nat × α)}
    {kv : Nat × α}
    (h : kv ∈ (List.range' (d + 1) m).flatMap (fun dd => digit_filter bit crb dd t)) :
    d < digitOf bit crb kv.1 := by
  rcases List.mem_flatMap.mp h with ⟨dd, hdd, hkv⟩
  have h1 := List.mem_range'_1.mp hdd
  have h2 := (List.mem_filter.mp hkv).2
  have := beq_iff_eq.mp h2
  omega

theorem mem_digit_filter_digit {α : Type} {bit crb d : Nat} {t : List (Nat × α)}
    {kv : Nat × α} (h : kv ∈ digit_filter bit crb d t) :
    digitOf bit crb kv.1 = d :=
  beq_iff_eq.mp (List.mem_filter.mp h).2

theorem sort_block_perm {α : Type} (bit crb : Nat) (t : List (Nat × α)) :
    (sort_block bit crb t).Perm t := by
  induction t with
  | nil => simp [sort_block]
  | cons x rest ih =>
    have hx : digitOf bit crb x.1 < 2 ^ crb := digitOf_lt bit crb x.1
    rw [sort_block_decomp bit crb (digitOf bit crb x.1) (x :: rest) hx]
    have hlow : (List.range (digitOf bit crb x.1)).flatMap
        (fun dd => digit_filter bit crb dd (x :: rest))
        = (List.range (digitOf bit crb x.1)).flatMap
            (fun dd => digit_filter bit crb dd rest) := by
      apply List.flatMap_congr
      intro dd hdd
      have : dd < digitOf bit crb x.1 := List.mem_range.mp hdd
      unfold digit_filter
      rw [List.filter_cons, if_neg (by simp; omega)]
    have hhigh : (List.range' (digitOf bit crb x.1 + 1)
        (2 ^ crb - (digitOf bit crb x.1 + 1))).flatMap
        (fun dd => digit_filter bit crb dd (x :: rest))
        = (List.range' (digitOf bit crb x.1 + 1)
            (2 ^ crb - (digitOf bit crb x.1 + 1))).flatMap
            (fun dd => digit_filter bit crb dd rest) := by
      apply List.flatMap_congr
      intro dd hdd
      have := List.mem_range'_1.mp hdd
      unfold digit_filter
      rw [List.filter_cons, if_neg (by simp; omega)]
    have hmid : digit_filter bit crb (digitOf bit crb x.1) (x :: rest)
        = x :: digit_filter bit crb (digitOf bit crb x.1) rest := by
      unfold digit_filter
      rw [List.filter_cons, if_pos (by simp)]
    rw [hlow, hhigh, hmid]
    have h1 : List.Perm
        ((List.range (digitOf bit crb x.1)).flatMap
            (fun dd => digit_filter bit crb dd rest)
          ++ (x :: digit_filter bit crb (digitOf bit crb x.1) rest))
        (x :: ((List.range (digitOf bit crb x.1)).flatMap
            (fun dd => digit_filter bit crb dd rest)
          ++ digit_filter bit crb (digitOf bit crb x.1) rest)) := List.perm_middle
    have h2 := h1.append_right ((List.range' (digitOf bit crb x.1 + 1)
        (2 ^ crb - (digitOf bit crb x.1 + 1))).flatMap
        fun dd => digit_filter bit crb dd rest)
    apply h2.trans
    show List.Perm (x :: (((List.range (digitOf bit crb x.1)).flatMap
        (fun dd => digit_filter bit crb dd rest)
      ++ digit_filter bit crb (digitOf bit crb x.1) rest)
      ++ (List.range' (digitOf bit crb x.1 + 1)
          (2 ^ crb - (digitOf bit crb x.1 + 1))).flatMap
          (fun dd => digit_filter bit crb dd rest))) (x :: rest)
    apply List.Perm.cons
    rw [← sort_block_decomp bit crb (digitOf bit crb x.1) rest hx]
    exact ih

theorem sort_block_length {α : Type} (bit crb : Nat) (t : List (Nat × α)) :
    (sort_block bit crb t).length = t.length :=
  (sort_block_perm bit crb t).length_eq

/-- The stable digit sort leaves a uniformly-maximal-digit suffix in place:
sorting `t ++ pad` with all of `pad` at digit `ds` and all of `t` at digit
at most `ds` sorts `t` and keeps `pad` as the suffix. -/
theorem sort_block_append_pad {α : Type} (bit crb ds : Nat) (t pad : List (Nat × α))
    (hds : ds < 2 ^ crb)
    (hpad : ∀ kv ∈ pad, digitOf bit crb kv.1 = ds)
    (ht : ∀ kv ∈ t, digitOf bit crb kv.1 ≤ ds) :
    sort_block bit crb (t ++ pad) = sort_block bit crb t ++ pad := by
  rw [sort_block_decomp bit crb ds (t ++ pad) hds, sort_block_decomp bit crb ds t hds]
  have hlow : ∀ dd ∈ List.range ds, digit_filter bit crb dd (t ++ pad)
      = digit_filter bit crb dd t := by
    intro dd hdd
    have hddlt := List.mem_range.mp hdd
    unfold digit_filter
    rw [List.filter_append]
    have hnil : pad.filter (fun kv => digitOf bit crb kv.1 == dd) = [] := by
      rw [List.filter_eq_nil_iff]
      intro kv hkv
      simp only [beq_iff_eq]
      rw [hpad kv hkv]
      omega
    rw [hnil, List.append_nil]
  have hmid : digit_filter bit crb ds (t ++ pad) = digit_filter bit crb ds t ++ pad := by
    unfold digit_filter
    rw [List.filter_append]
    congr 1
    rw [List.filter_eq_self]
    intro kv hkv
    simp [hpad kv hkv]
  have hhigh : ∀ u : List (Nat × α), (∀ kv ∈ u, digitOf bit crb kv.1 ≤ ds) →
      (List.range' (ds + 1) (2 ^ crb - (ds + 1))).flatMap
        (fun dd => digit_filter bit crb dd u) = [] := by
    intro u hu
    apply List.flatMap_eq_nil_iff.mpr
    intro dd hdd
    have := List.mem_range'_1.mp hdd
    unfold digit_filter
    rw [List.filter_eq_nil_iff]
    intro kv hkv
    simp only [beq_iff_eq]
    have := hu kv hkv
    omega
  have hht : ∀ kv ∈ t ++ pad, digitOf bit crb kv.1 ≤ ds := by
    intro kv hkv
    rcases List.mem_append.mp hkv with h | h
    · exact ht kv h
    · exact Nat.le_of_eq (hpad kv h)
  rw [List.flatMap_congr hlow, hmid, hhigh (t ++ pad) hht, hhigh t ht]
  simp [List.append_assoc]

theorem length_flatMap_list {β γ : Type} (l : List β) (f : β → List γ) :
    (l.flatMap f).length = (l.map fun a => (f a).length).sum := by
  induction l with
  | nil => rfl
  | cons x t ih => simp [List.flatMap_cons, ih]

theorem enumFrom_add_map {β : Type} (l : List β) (m n : Nat) :
    l.enumFrom (m + n) = (l.enumFrom m).map (fun pe => (pe.1 + n, pe.2)) := by
  induction l generalizing m with
  | nil => rfl
  | cons x t ih =>
    simp only [List.enumFrom_cons, List.map_cons]
    congr 1
    rw [show m + n + 1 = (m + 1) + n by omega, ih (m + 1)]

theorem list_enumFrom_append {β : Type} (l1 l2 : List β) (n : Nat) :
    (l1 ++ l2).enumFrom n = l1.enumFrom n ++ l2.enumFrom (n + l1.length) := by
  induction l1 generalizing n with
  | nil => simp
  | cons x t ih =>
    simp only [List.cons_append, List.enumFrom_cons, List.length_cons]
    rw [ih (n + 1), show n + (t.length + 1) = (n + 1) + t.length by omega]

/-- The length of the lower-digit segment is `digit_pref`. -/
theorem low_segment_length {α : Type} (bit crb d : Nat) (t : List (Nat × α)) :
    ((List.range d).flatMap (fun dd => digit_filter bit crb dd t)).length
      = digit_pref bit crb d t := by
  rw [length_flatMap_list, sum_map_range]
  rfl

/-- The loaded tile decomposes after the local sort into the sorted valid
items followed by the unmoved sentinel padding. -/
theorem block_sorted_decomp {α : Type} (bit crb w off ipb : Nat)
    (items : List (Nat × α)) (padv : α)
    (hkeys : ∀ kv ∈ items, kv.1 < 2 ^ w) :
    sort_block bit crb (block_tile items padv off ipb w)
      = sort_block bit crb ((items.drop off).take ipb)
        ++ List.replicate (ipb - ((items.drop off).take ipb).length)
            (2 ^ w - 1, padv) := by
  unfold block_tile
  apply sort_block_append_pad bit crb (digitOf bit crb (2 ^ w - 1))
  · exact digitOf_lt bit crb (2 ^ w - 1)
  · intro kv hkv
    rw [List.eq_of_mem_replicate hkv]
  · intro kv hkv
    exact digitOf_le_sentinel bit crb w kv.1
      (hkeys kv (List.mem_of_mem_drop (List.mem_of_mem_take hkv)))

theorem valid_count_eq_tile_length {α : Type} (items : List (Nat × α))
    (off ipb : Nat) (h : off ≤ items.length) :
    valid_count items.length off ipb = ((items.drop off).take ipb).length := by
  unfold valid_count
  rw [List.length_take, List.length_drop]
  split <;> omega

theorem digit_pref_add_cnt {α : Type} (bit crb d : Nat) (t : List (Nat × α)) :
    digit_pref bit crb d t + digit_cnt bit crb d t = digit_pref bit crb (d + 1) t := by
  unfold digit_pref
  rw [Finset.sum_range_succ]

/-- All digits are below `2 ^ crb`, so the prefix count at `2 ^ crb` is the
whole length. -/
theorem digit_pref_top {α : Type} (bit crb : Nat) (t : List (Nat × α)) :
    digit_pref bit crb (2 ^ crb) t = t.length := by
  have := low_segment_length bit crb (2 ^ crb) t
  rw [← this]
  have hdec : (List.range (2 ^ crb)).flatMap (fun dd => digit_filter bit crb dd t)
      = sort_block bit crb t := by
    unfold sort_block digit_filter
    rfl
  rw [hdec, sort_block_length]

theorem digit_pref_mono {α : Type} (bit crb : Nat) (t : List (Nat × α))
    {d1 d2 : Nat} (h : d1 ≤ d2) :
    digit_pref bit crb d1 t ≤ digit_pref bit crb d2 t := by
  unfold digit_pref
  exact Finset.sum_le_sum_of_subset (Finset.range_subset.mpr h)

theorem digit_pref_cnt_le {α : Type} (bit crb d : Nat) (t : List (Nat × α))
    (hd : d < 2 ^ crb) :
    digit_pref bit crb d t + digit_cnt bit crb d t ≤ t.length := by
  rw [digit_pref_add_cnt]
  rw [← digit_pref_top bit crb t]
  exact digit_pref_mono bit crb t hd

theorem digit_cnt_pos_lt {α : Type} {bit crb d : Nat} {t : List (Nat × α)}
    (h : 0 < digit_cnt bit crb d t) : d < 2 ^ crb := by
  unfold digit_cnt at h
  rcases List.exists_mem_of_length_pos h with ⟨kv, hkv⟩
  rw [← mem_digit_filter_digit hkv]
  exact digitOf_lt bit crb kv.1

theorem findIdx?_low_segment_none {α : Type} (bit crb d : Nat) (t : List (Nat × α)) :
    ((List.range d).flatMap (fun dd => digit_filter bit crb dd t)).findIdx?
      (fun kv => digitOf bit crb kv.1 == d) = none := by
  rw [List.findIdx?_eq_none_iff]
  intro kv hkv
  have := mem_low_segment hkv
  simp only [beq_eq_false_iff_ne, ne_eq]
  omega

theorem findIdx?_high_segment_none {α : Type} (bit crb d m : Nat) (t : List (Nat × α)) :
    ((List.range' (d + 1) m).flatMap (fun dd => digit_filter bit crb dd t)).findIdx?
      (fun kv => digitOf bit crb kv.1 == d) = none := by
  rw [List.findIdx?_eq_none_iff]
  intro kv hkv
  have := mem_high_segment hkv
  simp only [beq_eq_false_iff_ne, ne_eq]
  omega

theorem sort_block_findIdx?_some {α : Type} (bit crb d : Nat) (t : List (Nat × α))
    (hcnt : 0 < digit_cnt bit crb d t) :
    (sort_block bit crb t).findIdx? (fun kv => digitOf bit crb kv.1 == d)
      = some (digit_pref bit crb d t) := by
  have hd : d < 2 ^ crb := digit_cnt_pos_lt hcnt
  rw [sort_block_decomp bit crb d t hd]
  rw [List.findIdx?_append, List.findIdx?_append]
  rw [findIdx?_low_segment_none, findIdx?_high_segment_none]
  rcases hF : digit_filter bit crb d t with _ | ⟨y, ys⟩
  · exfalso
    unfold digit_cnt at hcnt
    rw [hF] at hcnt
    simp at hcnt
  · have hy : digitOf bit crb y.1 = d := by
      apply @mem_digit_filter_digit _ bit crb d t
      rw [hF]
      exact List.mem_cons_self y ys
    simp only [List.findIdx?_cons, hy, beq_self_eq_true, if_pos, Option.or_none,
      Option.none_or, Option.map_some]
    rw [low_segment_length]
    simp

theorem sort_block_findIdx?_none {α : Type} (bit crb d : Nat) (t : List (Nat × α))
    (hcnt : digit_cnt bit crb d t = 0) :
    (sort_block bit crb t).findIdx? (fun kv => digitOf bit crb kv.1 == d) = none := by
  rw [List.findIdx?_eq_none_iff]
  intro kv hkv
  have hmem : kv ∈ t := (sort_block_perm bit crb t).mem_iff.mp hkv
  simp only [beq_eq_false_iff_ne, ne_eq]
  intro hdig
  have : kv ∈ digit_filter bit crb d t := by
    unfold digit_filter
    exact List.mem_filter.mpr ⟨hmem, by simp [hdig]⟩
  unfold digit_cnt at hcnt
  rw [List.length_eq_zero] at hcnt
  rw [hcnt] at this
  exact List.not_mem_nil kv this

theorem findIdx?_replicate {α : Type} (bit crb d m w : Nat) (padv : α) :
    (List.replicate m ((2 ^ w - 1 : Nat), padv)).findIdx?
        (fun kv => digitOf bit crb kv.1 == d)
      = if digitOf bit crb (2 ^ w - 1) = d ∧ 0 < m then some 0 else none := by
  cases m with
  | zero => simp
  | succ mm =>
    rw [List.replicate_succ, List.findIdx?_cons]
    by_cases hds : digitOf bit crb (2 ^ w - 1) = d
    · simp [hds]
    · have hall : (List.replicate mm ((2 ^ w - 1 : Nat), padv)).findIdx?
          (fun kv => digitOf bit crb kv.1 == d) = none := by
        rw [List.findIdx?_eq_none_iff]
        intro kv hkv
        rw [List.eq_of_mem_replicate hkv]
        simp [hds]
      simp only [hds]
      simp [hall, hds]

/-- Closed form of `storage.starts[d]` for a block: the prefix count of
lower digits when digit `d` occurs among the valid items, else
`valid_count` (the padding, if hit, sits exactly at `valid_count`). -/
theorem starts_of_block_eq {α : Type} (bit crb w off ipb d : Nat)
    (items : List (Nat × α)) (padv : α)
    (hkeys : ∀ kv ∈ items, kv.1 < 2 ^ w)
    (hoff : off ≤ items.length) (hshort : ipb < 65536) :
    starts_of bit crb (valid_count items.length off ipb)
        (sort_block bit crb (block_tile items padv off ipb w)) d
      = if 0 < digit_cnt bit crb d ((items.drop off).take ipb)
        then digit_pref bit crb d ((items.drop off).take ipb)
        else valid_count items.length off ipb := by
  set t := (items.drop off).take ipb with ht
  have htlen : t.length ≤ ipb := by
    rw [ht]
    simp [List.length_take]
  have hvc : valid_count items.length off ipb = t.length :=
    valid_count_eq_tile_length items off ipb hoff
  unfold starts_of
  rw [block_sorted_decomp bit crb w off ipb items padv hkeys, ← ht]
  rw [List.findIdx?_append]
  by_cases hcnt : 0 < digit_cnt bit crb d t
  · rw [sort_block_findIdx?_some bit crb d t hcnt]
    rw [if_pos hcnt]
    simp only [Option.or_some, Option.getD_some]
    apply Nat.mod_eq_of_lt
    have h1 : digit_pref bit crb d t + digit_cnt bit crb d t ≤ t.length :=
      digit_pref_cnt_le bit crb d t (digit_cnt_pos_lt hcnt)
    omega
  · have hc0 : digit_cnt bit crb d t = 0 := by omega
    rw [sort_block_findIdx?_none bit crb d t hc0]
    rw [if_neg hcnt]
    rw [findIdx?_replicate bit crb d (ipb - t.length) w padv]
    by_cases hpadhit : digitOf bit crb (2 ^ w - 1) = d ∧ 0 < ipb - t.length
    · rw [if_pos hpadhit]
      simp only [Option.none_or]
      rw [sort_block_length]
      show (0 + t.length) % 65536 = valid_count items.length off ipb
      rw [Nat.zero_add, hvc]
      apply Nat.mod_eq_of_lt
      omega
    · rw [if_neg hpadhit]
      simp only [Option.none_or]
      show valid_count items.length off ipb % 65536 = valid_count items.length off ipb
      rw [hvc]
      apply Nat.mod_eq_of_lt
      omega

/-- The advance guard `starts[d] < valid_count` holds exactly when digit `d`
occurs among the block's valid items. -/
theorem starts_lt_vc_iff {α : Type} (bit crb w off ipb d : Nat)
    (items : List (Nat × α)) (padv : α)
    (hkeys : ∀ kv ∈ items, kv.1 < 2 ^ w)
    (hoff : off ≤ items.length) (hshort : ipb < 65536) :
    (starts_of bit crb (valid_count items.length off ipb)
        (sort_block bit crb (block_tile items padv off ipb w)) d
      < valid_count items.length off ipb)
      ↔ 0 < digit_cnt bit crb d ((items.drop off).take ipb) := by
  rw [starts_of_block_eq bit crb w off ipb d items padv hkeys hoff hshort]
  set t := (items.drop off).take ipb with ht
  have hvc : valid_count items.length off ipb = t.length :=
    valid_count_eq_tile_length items off ipb hoff
  by_cases hcnt : 0 < digit_cnt bit crb d t
  · rw [if_pos hcnt]
    have h1 : digit_pref bit crb d t + digit_cnt bit crb d t ≤ t.length :=
      digit_pref_cnt_le bit crb d t (digit_cnt_pos_lt hcnt)
    constructor
    · intro _
      exact hcnt
    · intro _
      omega
  · rw [if_neg hcnt]
    constructor
    · intro h
      omega
    · intro h
      exact absurd h hcnt

/-- If every item's digit is at most `ds`, the prefix count at `ds + 1` is
already the whole length. -/
theorem digit_pref_all_le {α : Type} (bit crb ds : Nat) (t : List (Nat × α))
    (hds : ds < 2 ^ crb)
    (hle : ∀ kv ∈ t, digitOf bit crb kv.1 ≤ ds) :
    digit_pref bit crb (ds + 1) t = t.length := by
  rw [← digit_pref_top bit crb t]
  unfold digit_pref
  apply Finset.sum_subset (Finset.range_subset.mpr (by omega))
  intro dd hdd2 hdd1
  have hgt : ds < dd := by
    have := Finset.mem_range.not.mp hdd1
    omega
  unfold digit_cnt digit_filter
  rw [List.filter_eq_nil_iff.mpr]
  · rfl
  · intro kv hkv
    simp only [beq_iff_eq]
    have := hle kv hkv
    omega

/-- Closed form of `min(valid_count - 1, ends[d])` for a digit occurring
among the valid items: the `min` exactly compensates for the padding items
extending the digit-`ds` run past the valid range. -/
theorem ends_of_block_min {α : Type} (bit crb w off ipb d : Nat)
    (items : List (Nat × α)) (padv : α)
    (hkeys : ∀ kv ∈ items, kv.1 < 2 ^ w)
    (hoff : off ≤ items.length) (hshort : ipb < 65536)
    (hcnt : 0 < digit_cnt bit crb d ((items.drop off).take ipb)) :
    min (valid_count items.length off ipb - 1)
        (ends_of bit crb (valid_count items.length off ipb)
          (sort_block bit crb (block_tile items padv off ipb w)) d)
      = digit_pref bit crb d ((items.drop off).take ipb)
        + digit_cnt bit crb d ((items.drop off).take ipb) - 1 := by
  set t := (items.drop off).take ipb with ht
  set m := ipb - t.length with hm
  have htlen : t.length ≤ ipb := by
    rw [ht]
    simp [List.length_take]
  have hvc : valid_count items.length off ipb = t.length :=
    valid_count_eq_tile_length items off ipb hoff
  have hd : d < 2 ^ crb := digit_cnt_pos_lt hcnt
  have hsum : digit_pref bit crb d t + digit_cnt bit crb d t ≤ t.length :=
    digit_pref_cnt_le bit crb d t hd
  unfold ends_of
  rw [block_sorted_decomp bit crb w off ipb items padv hkeys, ← ht, ← hm]
  rw [List.reverse_append, List.reverse_replicate]
  rw [List.findIdx?_append]
  rw [List.length_append, sort_block_length, List.length_replicate]
  by_cases hpad : digitOf bit crb (2 ^ w - 1) = d ∧ 0 < m
  · -- padding extends the digit-d run to the very end of the tile
    have hrep : (List.replicate m ((2 ^ w - 1 : Nat), padv)).findIdx?
        (fun kv => digitOf bit crb kv.1 == d) = some 0 := by
      rw [findIdx?_replicate bit crb d m w padv, if_pos hpad]
    rw [hrep]
    simp only [Option.or_some]
    show min (valid_count items.length off ipb - 1)
      ((t.length + m - 1 - 0) % 65536) = _
    have hmod : (t.length + m - 1 - 0) % 65536 = t.length + m - 1 := by
      apply Nat.mod_eq_of_lt
      omega
    rw [hmod, hvc]
    have hfull : digit_pref bit crb d t + digit_cnt bit crb d t = t.length := by
      have hde : d = digitOf bit crb (2 ^ w - 1) := hpad.1.symm
      have hall : ∀ kv ∈ t, digitOf bit crb kv.1 ≤ digitOf bit crb (2 ^ w - 1) := by
        intro kv hkv
        exact digitOf_le_sentinel bit crb w kv.1
          (hkeys kv (List.mem_of_mem_drop (List.mem_of_mem_take (ht ▸ hkv))))
      rw [digit_pref_add_cnt, hde]
      exact digit_pref_all_le bit crb _ t (digitOf_lt bit crb _) hall
    omega
  · -- the last digit-d item is the last valid one
    have hrep : (List.replicate m ((2 ^ w - 1 : Nat), padv)).findIdx?
        (fun kv => digitOf bit crb kv.1 == d) = none := by
      rw [findIdx?_replicate bit crb d m w padv, if_neg hpad]
    rw [hrep]
    simp only [Option.none_or]
    rw [sort_block_decomp bit crb d t hd]
    rw [List.reverse_append, List.reverse_append]
    rw [List.findIdx?_append]
    have hCnone : ((List.range' (d + 1) (2 ^ crb - (d + 1))).flatMap
        (fun dd => digit_filter bit crb dd t)).reverse.findIdx?
        (fun kv => digitOf bit crb kv.1 == d) = none := by
      rw [List.findIdx?_eq_none_iff]
      intro kv hkv
      have := mem_high_segment (List.mem_reverse.mp hkv)
      simp only [beq_eq_false_iff_ne, ne_eq]
      omega
    rw [hCnone]
    simp only [Option.none_or]
    rcases hFr : (digit_filter bit crb d t).reverse with _ | ⟨y, ys⟩
    · exfalso
      have : digit_filter bit crb d t = [] := by
        have := congrArg List.reverse hFr
        simpa using this
      unfold digit_cnt at hcnt
      rw [this] at hcnt
      simp at hcnt
    · have hy : digitOf bit crb y.1 = d := by
        apply @mem_digit_filter_digit _ bit crb d t
        rw [← List.mem_reverse, hFr]
        exact List.mem_cons_self y ys
      rw [List.cons_append]
      simp only [List.findIdx?_cons, hy, beq_self_eq_true, if_true]
      have hlenC : ((List.range' (d + 1) (2 ^ crb - (d + 1))).flatMap
          (fun dd => digit_filter bit crb dd t)).length
          = t.length - digit_pref bit crb d t - digit_cnt bit crb d t := by
        have hst := sort_block_decomp bit crb d t hd
        have hstlen := congrArg List.length hst
        rw [sort_block_length] at hstlen
        rw [List.length_append, List.length_append, low_segment_length] at hstlen
        unfold digit_cnt
        omega
      rw [List.length_reverse, hlenC]
      show min (valid_count items.length off ipb - 1)
        ((t.length + m - 1
          - (0 + (t.length - digit_pref bit crb d t - digit_cnt bit crb d t) + m))
            % 65536) = _
      have hmod : (t.length + m - 1
          - (0 + (t.length - digit_pref bit crb d t - digit_cnt bit crb d t) + m))
            % 65536
          = digit_pref bit crb d t + digit_cnt bit crb d t - 1 := by
        rw [show t.length + m - 1
            - (0 + (t.length - digit_pref bit crb d t - digit_cnt bit crb d t) + m)
            = digit_pref bit crb d t + digit_cnt bit crb d t - 1 by omega]
        apply Nat.mod_eq_of_lt
        omega
      rw [hmod, hvc]
      omega

/-- C7's core: each block advances `block_starts[d]` by exactly the number
of its valid items with digit `d`. -/
theorem advance_block_starts_eq {α : Type} (bit crb w off ipb d : Nat)
    (items : List (Nat × α)) (padv : α) (bs : Nat → Nat)
    (hkeys : ∀ kv ∈ items, kv.1 < 2 ^ w)
    (hoff : off ≤ items.length) (hshort : ipb < 65536) :
    advance_block_starts bit crb (valid_count items.length off ipb) bs
        (sort_block bit crb (block_tile items padv off ipb w)) d
      = bs d + digit_cnt bit crb d ((items.drop off).take ipb) := by
  unfold advance_block_starts
  by_cases hcnt : 0 < digit_cnt bit crb d ((items.drop off).take ipb)
  · rw [if_pos ((starts_lt_vc_iff bit crb w off ipb d items padv hkeys hoff hshort).mpr
      hcnt)]
    rw [ends_of_block_min bit crb w off ipb d items padv hkeys hoff hshort hcnt]
    rw [starts_of_block_eq bit crb w off ipb d items padv hkeys hoff hshort,
      if_pos hcnt]
    congr 1
    have hsum : digit_pref bit crb d ((items.drop off).take ipb)
        + digit_cnt bit crb d ((items.drop off).take ipb)
        ≤ ((items.drop off).take ipb).length :=
      digit_pref_cnt_le bit crb d _ (digit_cnt_pos_lt hcnt)
    omega
  · rw [if_neg (fun h => hcnt
      ((starts_lt_vc_iff bit crb w off ipb d items padv hkeys hoff hshort).mp h))]
    omega

theorem snd_mem_of_mem_enumFrom {β : Type} (l : List β) (n : Nat) (pe : Nat × β)
    (h : pe ∈ l.enumFrom n) : pe.2 ∈ l := by
  induction l generalizing n with
  | nil => simp at h
  | cons x tl ih =>
    rw [List.enumFrom_cons] at h
    rcases List.mem_cons.mp h with h | h
    · rw [h]
      exact List.mem_cons_self x tl
    · exact List.mem_cons_of_mem x (ih (n + 1) h)

theorem fst_ge_of_mem_enumFrom {β : Type} (l : List β) (n : Nat) (pe : Nat × β)
    (h : pe ∈ l.enumFrom n) : n ≤ pe.1 := by
  induction l generalizing n with
  | nil => simp at h
  | cons x tl ih =>
    rw [List.enumFrom_cons] at h
    rcases List.mem_cons.mp h with h | h
    · rw [h]
    · have := ih (n + 1) h
      omega

/-- The consistency invariant between the shared `starts` values and the
running enumeration offset while walking the sorted block digit by digit. -/
def starts_ok {α : Type} (bit crb : Nat) (t : List (Nat × α)) (S : Nat → Nat) :
    List Nat → Nat → Prop
  | [], _ => True
  | dd :: rest, n =>
      (digit_filter bit crb dd t ≠ [] → S dd = n)
      ∧ starts_ok bit crb t S rest (n + (digit_filter bit crb dd t).length)

theorem map_wf_of_uniform_digit {α : Type} (bit crb dd : Nat) (S bs : Nat → Nat)
    (F : List (Nat × α)) (n : Nat)
    (hdig : ∀ kv ∈ F, digitOf bit crb kv.1 = dd) (hS : S dd = n) :
    (F.enumFrom n).map (fun pe =>
        (pe.1 - S (digitOf bit crb pe.2.1) + bs (digitOf bit crb pe.2.1), pe.2))
      = F.enum.map (fun pe => (bs dd + pe.1, pe.2)) := by
  rw [show F.enumFrom n = F.enumFrom (0 + n) by rw [Nat.zero_add]]
  rw [enumFrom_add_map F 0 n]
  rw [List.map_map]
  apply List.map_congr_left
  intro pe hpe
  have hd := hdig pe.2 (snd_mem_of_mem_enumFrom F 0 pe hpe)
  simp only [Function.comp_apply, hd, hS]
  congr 1
  omega

/-- Walking the sorted block digit segment by digit segment, the scatter map
`pos - starts[digit] + block_starts[digit]` re-bases every segment at its
own `block_starts` value. -/
theorem scatter_segments {α : Type} (bit crb : Nat) (t : List (Nat × α))
    (S bs : Nat → Nat) :
    ∀ (dl : List Nat) (n : Nat), starts_ok bit crb t S dl n →
    ((dl.flatMap (fun dd => digit_filter bit crb dd t)).enumFrom n).map
        (fun pe =>
          (pe.1 - S (digitOf bit crb pe.2.1) + bs (digitOf bit crb pe.2.1), pe.2))
      = dl.flatMap (fun dd => (digit_filter bit crb dd t).enum.map
          (fun pe => (bs dd + pe.1, pe.2)))
  | [], n, _ => by simp
  | dd :: rest, n, hok => by
    rw [List.flatMap_cons, List.flatMap_cons, list_enumFrom_append, List.map_append]
    congr 1
    · rcases hF : digit_filter bit crb dd t with _ | ⟨y, ys⟩
      · simp
      · have hS : S dd = n := hok.1 (by rw [hF]; simp)
        rw [← hF]
        apply map_wf_of_uniform_digit bit crb dd S bs _ n _ hS
        intro kv hkv
        exact mem_digit_filter_digit hkv
    · exact scatter_segments bit crb t S bs rest (n + (digit_filter bit crb dd t).length)
        hok.2

theorem starts_ok_range' {α : Type} (bit crb : Nat) (t : List (Nat × α)) (S : Nat → Nat) :
    ∀ (len d0 : Nat),
    (∀ dd, d0 ≤ dd → dd < d0 + len → digit_filter bit crb dd t ≠ [] →
      S dd = digit_pref bit crb dd t) →
    starts_ok bit crb t S (List.range' d0 len) (digit_pref bit crb d0 t)
  | 0, d0, _ => by
    rw [List.range'_zero]
    trivial
  | len + 1, d0, hS => by
    rw [List.range'_succ]
    refine ⟨fun hne => hS d0 le_rfl (by omega) hne, ?_⟩
    have hnext : digit_pref bit crb d0 t + (digit_filter bit crb d0 t).length
        = digit_pref bit crb (d0 + 1) t := digit_pref_add_cnt bit crb d0 t
    rw [hnext]
    exact starts_ok_range' bit crb t S len (d0 + 1)
      (fun dd h1 h2 hne => hS dd (by omega) (by omega) hne)

/-- The block's write list, in closed form: for each digit `dd`, the items
of the valid tile with digit `dd`, in stable order, are written to the
consecutive destinations starting at `block_starts[dd]`. -/
theorem block_scatter_writes_eq {α : Type} (bit crb w off ipb : Nat)
    (items : List (Nat × α)) (padv : α) (bs : Nat → Nat)
    (hkeys : ∀ kv ∈ items, kv.1 < 2 ^ w)
    (hoff : off ≤ items.length) (hshort : ipb < 65536) :
    block_scatter_writes bit crb (valid_count items.length off ipb) bs
        (sort_block bit crb (block_tile items padv off ipb w))
      = (List.range (2 ^ crb)).flatMap
          (fun dd => (digit_filter bit crb dd ((items.drop off).take ipb)).enum.map
            (fun pe => (bs dd + pe.1, pe.2))) := by
  set t := (items.drop off).take ipb with ht
  have hvc : valid_count items.length off ipb = t.length :=
    valid_count_eq_tile_length items off ipb hoff
  unfold block_scatter_writes
  have htake : (sort_block bit crb (block_tile items padv off ipb w)).take
      (valid_count items.length off ipb) = sort_block bit crb t := by
    rw [block_sorted_decomp bit crb w off ipb items padv hkeys, ← ht]
    rw [hvc, ← sort_block_length bit crb t]
    exact List.take_left _ _
  rw [htake]
  have henum : (sort_block bit crb t).enum = (sort_block bit crb t).enumFrom 0 := rfl
  rw [henum]
  have hsort : sort_block bit crb t
      = (List.range (2 ^ crb)).flatMap (fun dd => digit_filter bit crb dd t) := rfl
  rw [hsort]
  have hpref0 : digit_pref bit crb 0 t = 0 := by
    unfold digit_pref
    simp
  rw [show (List.range (2 ^ crb)) = List.range' 0 (2 ^ crb) from List.range_eq_range' _]
  rw [show (0 : Nat) = digit_pref bit crb 0 t from hpref0.symm]
  apply scatter_segments bit crb t _ bs (List.range' 0 (2 ^ crb)) (digit_pref bit crb 0 t)
  apply starts_ok_range' bit crb t _ (2 ^ crb) 0
  intro dd _ hdd2 hne
  have hcnt : 0 < digit_cnt bit crb dd t := by
    unfold digit_cnt
    exact List.length_pos.mpr hne
  rw [starts_of_block_eq bit crb w off ipb dd items padv hkeys hoff hshort, ← ht]
  rw [if_pos hcnt]

/-- C7 — Running-offset advance: after each block of the batch's serial
loop, `block_starts[d]` — updated as
`min(valid_count-1, ends[d]) - starts[d] + 1` under the guard
`starts[d] < valid_count` — is advanced by exactly the number of valid
(in-range) items with digit `d` in that block; a digit absent from the valid
items, including one occurring only among the padding, contributes zero. -/
theorem C7_running_offset_advance {α : Type} (bit crb w off ipb d : Nat)
    (items : List (Nat × α)) (padv : α) (bs : Nat → Nat)
    (hkeys : ∀ kv ∈ items, kv.1 < 2 ^ w)
    (hoff : off ≤ items.length) (hshort : ipb < 65536) :
    (sort_and_scatter_block items padv bit crb w off ipb bs).2 d
        = bs d + digit_cnt bit crb d ((items.drop off).take ipb)
      ∧ (digit_cnt bit crb d ((items.drop off).take ipb) = 0 →
          (sort_and_scatter_block items padv bit crb w off ipb bs).2 d = bs d) := by
  have h := advance_block_starts_eq bit crb w off ipb d items padv bs hkeys hoff hshort
  refine ⟨h, fun h0 => ?_⟩
  show advance_block_starts bit crb (valid_count items.length off ipb) bs
      (sort_block bit crb (block_tile items padv off ipb w)) d = bs d
  rw [h, h0]
  omega

/-- Witness for C7: a half-filled 4-item block; digit 3 occurs only in the
padding and contributes zero. -/
theorem C7_running_offset_advance_witness :
    ((sort_and_scatter_block [(1, 0), (0, 1), (3, 2)] 7 0 2 2 0 4
          (fun _ => 5)).2 1
        = (fun _ => 5) 1 + digit_cnt 0 2 1 ((([(1, 0), (0, 1), (3, 2)] :
            List (Nat × Nat)).drop 0).take 4)
      ∧ (digit_cnt 0 2 1 ((([(1, 0), (0, 1), (3, 2)] : List (Nat × Nat)).drop 0).take 4)
            = 0 →
          (sort_and_scatter_block [(1, 0), (0, 1), (3, 2)] 7 0 2 2 0 4
            (fun _ => 5)).2 1 = (fun _ => 5) 1)) :=
  C7_running_offset_advance 0 2 2 0 4 1 [(1, 0), (0, 1), (3, 2)] 7 (fun _ => 5)
    (by decide) (by decide) (by decide)

/-- C9 — Padding safety: the out-of-range tail of the final partial block is
filled with the sentinel key `bit_key_type(-1)`; after the stable local sort
the padding occupies exactly the positions at and past `valid_count` (so it
never precedes any valid item, even when a valid key has the all-ones
pattern), and padding items are never written because only positions
`pos < valid_count` store to the output. -/
theorem C9_padding_safety {α : Type} (bit crb w off ipb : Nat)
    (items : List (Nat × α)) (padv : α) (bs : Nat → Nat)
    (hkeys : ∀ kv ∈ items, kv.1 < 2 ^ w)
    (hoff : off ≤ items.length) (hshort : ipb < 65536) :
    (sort_block bit crb (block_tile items padv off ipb w)
        = sort_block bit crb ((items.drop off).take ipb)
          ++ List.replicate (ipb - ((items.drop off).take ipb).length)
              (2 ^ w - 1, padv))
    ∧ ((sort_block bit crb (block_tile items padv off ipb w)).take
          (valid_count items.length off ipb)
        = sort_block bit crb ((items.drop off).take ipb))
    ∧ (∀ pe ∈ block_scatter_writes bit crb (valid_count items.length off ipb) bs
          (sort_block bit crb (block_tile items padv off ipb w)),
        pe.2 ∈ (items.drop off).take ipb) := by
  have hdec := block_sorted_decomp bit crb w off ipb items padv hkeys
  have hvc : valid_count items.length off ipb = ((items.drop off).take ipb).length :=
    valid_count_eq_tile_length items off ipb hoff
  have htake : (sort_block bit crb (block_tile items padv off ipb w)).take
      (valid_count items.length off ipb)
      = sort_block bit crb ((items.drop off).take ipb) := by
    rw [hdec, hvc, ← sort_block_length bit crb ((items.drop off).take ipb)]
    exact List.take_left _ _
  refine ⟨hdec, htake, ?_⟩
  intro pe hpe
  rw [block_scatter_writes_eq bit crb w off ipb items padv bs hkeys hoff hshort] at hpe
  rcases List.mem_flatMap.mp hpe with ⟨dd, _, hmem⟩
  rcases List.mem_map.mp hmem with ⟨qe, hq, hqe⟩
  have hsnd : qe.2 ∈ digit_filter bit crb dd ((items.drop off).take ipb) :=
    snd_mem_of_mem_enumFrom _ 0 qe hq
  have : pe.2 = qe.2 := by rw [← hqe]
  rw [this]
  exact List.mem_of_mem_filter hsnd

/-- Witness for C9 at the C7 witness block: one padding slot, sentinel `3`. -/
theorem C9_padding_safety_witness :
    (sort_block 0 2 (block_tile [(1, 0), (0, 1), (3, 2)] 7 0 4 2)
        = sort_block 0 2 ((([(1, 0), (0, 1), (3, 2)] : List (Nat × Nat)).drop 0).take 4)
          ++ List.replicate
              (4 - ((([(1, 0), (0, 1), (3, 2)] : List (Nat × Nat)).drop 0).take 4).length)
              (2 ^ 2 - 1, 7))
    ∧ ((sort_block 0 2 (block_tile [(1, 0), (0, 1), (3, 2)] 7 0 4 2)).take
          (valid_count ([(1, 0), (0, 1), (3, 2)] : List (Nat × Nat)).length 0 4)
        = sort_block 0 2 ((([(1, 0), (0, 1), (3, 2)] : List (Nat × Nat)).drop 0).take 4))
    ∧ (∀ pe ∈ block_scatter_writes 0 2
          (valid_count ([(1, 0), (0, 1), (3, 2)] : List (Nat × Nat)).length 0 4)
          (fun _ => 5)
          (sort_block 0 2 (block_tile [(1, 0), (0, 1), (3, 2)] 7 0 4 2)),
        pe.2 ∈ (([(1, 0), (0, 1), (3, 2)] : List (Nat × Nat)).drop 0).take 4) :=
  C9_padding_safety 0 2 2 0 4 [(1, 0), (0, 1), (3, 2)] 7 (fun _ => 5)
    (by decide) (by decide) (by decide)

/-! #### The batch's serial loop -/

theorem digit_cnt_append {α : Type} (bit crb d : Nat) (t1 t2 : List (Nat × α)) :
    digit_cnt bit crb d (t1 ++ t2) = digit_cnt bit crb d t1 + digit_cnt bit crb d t2 := by
  unfold digit_cnt digit_filter
  rw [List.filter_append, List.length_append]

/-- The valid slice of `n1 + n2` blocks is the slice of the first `n1`
followed by the slice of the remaining `n2`. -/
theorem tile_split {α : Type} (items : List (Nat × α)) (off ipb n1 n2 : Nat) :
    (items.drop off).take ((n1 + n2) * ipb)
      = (items.drop off).take (n1 * ipb)
        ++ (items.drop (off + n1 * ipb)).take (n2 * ipb) := by
  rw [show (n1 + n2) * ipb = n1 * ipb + n2 * ipb by ring]
  rw [List.take_add]
  congr 1
  rw [List.drop_drop]

theorem sort_and_scatter_batch_zero {α : Type} (items : List (Nat × α)) (padv : α)
    (bit crb w ipb off : Nat) (bs : Nat → Nat) :
    sort_and_scatter_batch items padv bit crb w ipb 0 off bs = [] := rfl

theorem sort_and_scatter_batch_succ {α : Type} (items : List (Nat × α)) (padv : α)
    (bit crb w ipb n off : Nat) (bs : Nat → Nat) :
    sort_and_scatter_batch items padv bit crb w ipb (n + 1) off bs
      = block_scatter_writes bit crb (valid_count items.length off ipb) bs
          (sort_block bit crb (block_tile items padv off ipb w))
        ++ sort_and_scatter_batch items padv bit crb w ipb n (off + ipb)
            (advance_block_starts bit crb (valid_count items.length off ipb) bs
              (sort_block bit crb (block_tile items padv off ipb w))) := by
  simp only [sort_and_scatter_batch, sort_and_scatter_block]

/-- The write list depends on `block_starts` only at real digit values. -/
theorem sort_and_scatter_batch_congr {α : Type} (items : List (Nat × α)) (padv : α)
    (bit crb w ipb : Nat) :
    ∀ (n off : Nat) (bs1 bs2 : Nat → Nat),
    (∀ d, d < 2 ^ crb → bs1 d = bs2 d) →
    sort_and_scatter_batch items padv bit crb w ipb n off bs1
      = sort_and_scatter_batch items padv bit crb w ipb n off bs2
  | 0, _, _, _, _ => rfl
  | n + 1, off, bs1, bs2, hag => by
    rw [sort_and_scatter_batch_succ, sort_and_scatter_batch_succ]
    have hw : block_scatter_writes bit crb (valid_count items.length off ipb) bs1
        (sort_block bit crb (block_tile items padv off ipb w))
        = block_scatter_writes bit crb (valid_count items.length off ipb) bs2
          (sort_block bit crb (block_tile items padv off ipb w)) := by
      unfold block_scatter_writes
      apply List.map_congr_left
      intro pe _
      rw [hag (digitOf bit crb pe.2.1) (digitOf_lt bit crb pe.2.1)]
    have hadv : ∀ d, d < 2 ^ crb →
        advance_block_starts bit crb (valid_count items.length off ipb) bs1
          (sort_block bit crb (block_tile items padv off ipb w)) d
        = advance_block_starts bit crb (valid_count items.length off ipb) bs2
          (sort_block bit crb (block_tile items padv off ipb w)) d := by
      intro d hd
      unfold advance_block_starts
      rw [hag d hd]
    rw [hw]
    congr 1
    exact sort_and_scatter_batch_congr items padv bit crb w ipb n (off + ipb) _ _ hadv

/-- Splitting the serial loop: running `n1 + n2` blocks equals running the
first `n1`, then the remaining `n2` with the running offsets advanced by the
first slice's digit counts. -/
theorem sort_and_scatter_batch_split {α : Type} (items : List (Nat × α)) (padv : α)
    (bit crb w ipb : Nat)
    (hkeys : ∀ kv ∈ items, kv.1 < 2 ^ w) (hshort : ipb < 65536) :
    ∀ (n1 n2 off : Nat) (bs : Nat → Nat),
    (∀ i, i < n1 → off + i * ipb < items.length) →
    sort_and_scatter_batch items padv bit crb w ipb (n1 + n2) off bs
      = sort_and_scatter_batch items padv bit crb w ipb n1 off bs
        ++ sort_and_scatter_batch items padv bit crb w ipb n2 (off + n1 * ipb)
            (fun d => bs d + digit_cnt bit crb d ((items.drop off).take (n1 * ipb)))
  | 0, n2, off, bs, _ => by
    rw [Nat.zero_add, sort_and_scatter_batch_zero, List.nil_append]
    rw [show off + 0 * ipb = off by omega]
    apply sort_and_scatter_batch_congr
    intro d _
    simp [digit_cnt, digit_filter]
  | n1 + 1, n2, off, bs, hblk => by
    have hoff : off ≤ items.length := by
      have := hblk 0 (by omega)
      omega
    rw [show n1 + 1 + n2 = (n1 + n2) + 1 by omega]
    rw [sort_and_scatter_batch_succ, sort_and_scatter_batch_succ]
    rw [List.append_assoc]
    congr 1
    have hadv : advance_block_starts bit crb (valid_count items.length off ipb) bs
        (sort_block bit crb (block_tile items padv off ipb w))
        = fun d => bs d + digit_cnt bit crb d ((items.drop off).take ipb) := by
      funext d
      exact advance_block_starts_eq bit crb w off ipb d items padv bs hkeys hoff hshort
    rw [hadv]
    rw [sort_and_scatter_batch_split items padv bit crb w ipb hkeys hshort n1 n2 (off + ipb)
      (fun d => bs d + digit_cnt bit crb d ((items.drop off).take ipb))
      (fun i hi => by
        have h1 := hblk (i + 1) (by omega)
        have h2 : off + (i + 1) * ipb = off + ipb + i * ipb := by ring
        omega)]
    rw [show off + ipb + n1 * ipb = off + (n1 + 1) * ipb by ring]
    congr 1
    apply sort_and_scatter_batch_congr
    intro d _
    have hsplit : (items.drop off).take ((n1 + 1) * ipb)
        = (items.drop off).take (1 * ipb)
          ++ (items.drop (off + 1 * ipb)).take (n1 * ipb) := by
      rw [show (n1 + 1) * ipb = (1 + n1) * ipb by ring]
      exact tile_split items off ipb 1 n1
    simp only [hsplit, digit_cnt_append, Nat.one_mul]
    omega

theorem flatMap_append_interleave {β γ : Type} (l : List β) (f g : β → List γ) :
    List.Perm (l.flatMap f ++ l.flatMap g) (l.flatMap (fun x => f x ++ g x)) := by
  induction l with
  | nil => simp
  | cons x tl ih =>
    simp only [List.flatMap_cons]
    rw [List.append_assoc, List.append_assoc]
    apply List.Perm.append_left
    rw [← List.append_assoc]
    refine List.Perm.trans
      ((@List.perm_append_comm _ (tl.flatMap f) (g x)).append_right _) ?_
    rw [List.append_assoc]
    exact ih.append_left (g x)

/-- One batch's write list, up to ordering: for each digit `dd`, the batch's
valid items with digit `dd`, in original order across its blocks, are
written to consecutive destinations starting at the batch's initial
`block_starts[dd]`. -/
theorem sort_and_scatter_batch_perm {α : Type} (items : List (Nat × α)) (padv : α)
    (bit crb w ipb : Nat)
    (hkeys : ∀ kv ∈ items, kv.1 < 2 ^ w) (hshort : ipb < 65536) :
    ∀ (n off : Nat) (bs : Nat → Nat),
    (∀ i, i < n → off + i * ipb < items.length) →
    List.Perm
      (sort_and_scatter_batch items padv bit crb w ipb n off bs)
      ((List.range (2 ^ crb)).flatMap (fun dd =>
        (digit_filter bit crb dd ((items.drop off).take (n * ipb))).enum.map
          (fun pe => (bs dd + pe.1, pe.2))))
  | 0, off, bs, _ => by
    rw [sort_and_scatter_batch_zero]
    simp [digit_filter]
  | n + 1, off, bs, hblk => by
    have hoff : off ≤ items.length := by
      have := hblk 0 (by omega)
      omega
    rw [sort_and_scatter_batch_succ]
    rw [block_scatter_writes_eq bit crb w off ipb items padv bs hkeys hoff hshort]
    have hadv : advance_block_starts bit crb (valid_count items.length off ipb) bs
        (sort_block bit crb (block_tile items padv off ipb w))
        = fun d => bs d + digit_cnt bit crb d ((items.drop off).take ipb) := by
      funext d
      exact advance_block_starts_eq bit crb w off ipb d items padv bs hkeys hoff hshort
    rw [hadv]
    have ih := sort_and_scatter_batch_perm items padv bit crb w ipb hkeys hshort n
      (off + ipb) (fun d => bs d + digit_cnt bit crb d ((items.drop off).take ipb))
      (fun i hi => by
        have h1 := hblk (i + 1) (by omega)
        have h2 : off + (i + 1) * ipb = off + ipb + i * ipb := by ring
        omega)
    refine List.Perm.trans (ih.append_left _) ?_
    refine List.Perm.trans (flatMap_append_interleave _ _ _) ?_
    have hpt : ∀ dd ∈ List.range (2 ^ crb),
        ((digit_filter bit crb dd ((items.drop off).take ipb)).enum.map
            (fun pe => (bs dd + pe.1, pe.2)))
          ++ ((digit_filter bit crb dd
              ((items.drop (off + ipb)).take (n * ipb))).enum.map
            (fun pe =>
              ((fun d => bs d + digit_cnt bit crb d ((items.drop off).take ipb)) dd
                + pe.1, pe.2)))
        = (digit_filter bit crb dd ((items.drop off).take ((n + 1) * ipb))).enum.map
            (fun pe => (bs dd + pe.1, pe.2)) := by
      intro dd _
      have hsplit : (items.drop off).take ((n + 1) * ipb)
          = (items.drop off).take (1 * ipb)
            ++ (items.drop (off + 1 * ipb)).take (n * ipb) := by
        rw [show (n + 1) * ipb = (1 + n) * ipb by ring]
        exact tile_split items off ipb 1 n
      rw [hsplit]
      simp only [Nat.one_mul]
      unfold digit_filter
      rw [List.filter_append]
      have henum : ((List.filter (fun kv => digitOf bit crb kv.1 == dd)
            ((items.drop off).take ipb))
          ++ (List.filter (fun kv => digitOf bit crb kv.1 == dd)
            ((items.drop (off + ipb)).take (n * ipb)))).enum
          = (List.filter (fun kv => digitOf bit crb kv.1 == dd)
              ((items.drop off).take ipb)).enum
            ++ ((List.filter (fun kv => digitOf bit crb kv.1 == dd)
              ((items.drop (off + ipb)).take (n * ipb))).enumFrom
              (0 + (List.filter (fun kv => digitOf bit crb kv.1 == dd)
                ((items.drop off).take ipb)).length)) := by
        exact list_enumFrom_append _ _ 0
      rw [show ((List.filter (fun kv => digitOf bit crb kv.1 == dd)
          ((items.drop off).take ipb))
          ++ (List.filter (fun kv => digitOf bit crb kv.1 == dd)
            ((items.drop (off + ipb)).take (n * ipb)))).enum
          = _ from henum]
      rw [List.map_append]
      congr 1
      rw [Nat.zero_add]
      rw [show (List.filter (fun kv => digitOf bit crb kv.1 == dd)
          ((items.drop off).take ipb)).length
          = 0 + digit_cnt bit crb dd ((items.drop off).take ipb) by
        unfold digit_cnt digit_filter
        omega]
      rw [enumFrom_add_map _ 0 (digit_cnt bit crb dd ((items.drop off).take ipb))]
      rw [List.map_map]
      apply List.map_congr_left
      intro pe _
      simp only [Function.comp_apply]
      congr 1
      omega
    rw [List.flatMap_congr hpt]

/-- Every element of the digit-segmented enumeration sits at or past its
segment's base position. -/
theorem rank_ge_gen {α : Type} (bit crb : Nat) (t : List (Nat × α)) (S : Nat → Nat) :
    ∀ (dl : List Nat) (n : Nat), starts_ok bit crb t S dl n →
    ∀ pe ∈ ((dl.flatMap (fun dd => digit_filter bit crb dd t)).enumFrom n),
      S (digitOf bit crb pe.2.1) ≤ pe.1
  | [], _, _ => by
    intro pe hpe
    simp at hpe
  | dd :: rest, n, hok => by
    intro pe hpe
    rw [List.flatMap_cons, list_enumFrom_append] at hpe
    rcases List.mem_append.mp hpe with h | h
    · have hne : digit_filter bit crb dd t ≠ [] := by
        intro hnil
        rw [hnil] at h
        simp at h
      have hS : S dd = n := hok.1 hne
      have hdig : digitOf bit crb pe.2.1 = dd :=
        mem_digit_filter_digit (snd_mem_of_mem_enumFrom _ n pe h)
      rw [hdig, hS]
      exact fst_ge_of_mem_enumFrom _ n pe h
    · exact rank_ge_gen bit crb t S rest (n + (digit_filter bit crb dd t).length) hok.2
        pe h

/-- The enumeration of the stable digit sort is the digit-segmented
enumeration re-based at the digit prefix counts. -/
theorem enum_sort_block_eq_flatMap {α : Type} (bit crb : Nat) (t : List (Nat × α)) :
    (sort_block bit crb t).enum
      = (List.range (2 ^ crb)).flatMap (fun dd =>
          (digit_filter bit crb dd t).enum.map
            (fun pe => (digit_pref bit crb dd t + pe.1, pe.2))) := by
  have hok : starts_ok bit crb t (fun dd => digit_pref bit crb dd t)
      (List.range' 0 (2 ^ crb)) (digit_pref bit crb 0 t) :=
    starts_ok_range' bit crb t _ (2 ^ crb) 0 (fun dd _ _ _ => rfl)
  have hseg := scatter_segments bit crb t (fun dd => digit_pref bit crb dd t)
    (fun dd => digit_pref bit crb dd t) (List.range' 0 (2 ^ crb))
    (digit_pref bit crb 0 t) hok
  have hpref0 : digit_pref bit crb 0 t = 0 := by
    unfold digit_pref
    simp
  have hsort : sort_block bit crb t
      = (List.range' 0 (2 ^ crb)).flatMap (fun dd => digit_filter bit crb dd t) := by
    unfold sort_block digit_filter
    rw [← List.range_eq_range']
  have hid : ((sort_block bit crb t).enumFrom 0).map
      (fun pe => (pe.1 - digit_pref bit crb (digitOf bit crb pe.2.1) t
        + digit_pref bit crb (digitOf bit crb pe.2.1) t, pe.2))
      = (sort_block bit crb t).enumFrom 0 := by
    have hrank := rank_ge_gen bit crb t (fun dd => digit_pref bit crb dd t)
      (List.range' 0 (2 ^ crb)) (digit_pref bit crb 0 t) hok
    rw [hpref0] at hrank
    rw [← hsort] at hrank
    conv_rhs => rw [← List.map_id ((sort_block bit crb t).enumFrom 0)]
    apply List.map_congr_left
    intro pe hpe
    have hge : digit_pref bit crb (digitOf bit crb pe.2.1) t ≤ pe.1 := hrank pe hpe
    have harith : pe.1 - digit_pref bit crb (digitOf bit crb pe.2.1) t
        + digit_pref bit crb (digitOf bit crb pe.2.1) t = pe.1 := by omega
    rw [harith]
    rfl
  have henum : (sort_block bit crb t).enum = (sort_block bit crb t).enumFrom 0 := rfl
  rw [henum, ← hid]
  rw [show (sort_block bit crb t).enumFrom 0
    = ((List.range' 0 (2 ^ crb)).flatMap
        (fun dd => digit_filter bit crb dd t)).enumFrom (digit_pref bit crb 0 t) by
      rw [hpref0, ← hsort]]
  rw [hseg]
  rw [← List.range_eq_range']

theorem batch_block_offset_zero (bpfb fb : Nat) : batch_block_offset bpfb fb 0 = 0 := by
  unfold batch_block_offset
  split <;> omega

theorem flatMap_perm_congr {β γ : Type} (l : List β) (f g : β → List γ)
    (h : ∀ a ∈ l, (f a).Perm (g a)) : (l.flatMap f).Perm (l.flatMap g) := by
  induction l with
  | nil => simp
  | cons x t ih =>
    rw [List.flatMap_cons, List.flatMap_cons]
    exact (h x (List.mem_cons_self x t)).append
      (ih (fun a ha => h a (List.mem_cons_of_mem x ha)))

/-- `batch_block_offset` at the grid size equals the total block count. -/
theorem batch_block_offset_total (B bpfb fb T : Nat) (h : ValidBatching B bpfb fb T)
    (h1 : 1 ≤ bpfb) :
    batch_block_offset bpfb fb B = T := by
  rcases h.total with ht | ⟨h0, _, _⟩
  · unfold batch_block_offset
    rcases Nat.lt_or_ge B fb with hBfb | hBfb
    · exact absurd (Nat.lt_of_le_of_lt h.hfb hBfb) (Nat.lt_irrefl _)
    · rw [if_neg (Nat.not_lt.mpr hBfb), ht]
      ring
  · omega

/-- Every block of every batch has index below the total block count. -/
theorem batch_block_lt_total (B bpfb fb T : Nat) (h : ValidBatching B bpfb fb T)
    (b i : Nat) (hb : b < B) (hi : i < blocks_per_batch bpfb fb b) :
    batch_block_offset bpfb fb b + i < T := by
  rcases Nat.eq_zero_or_pos bpfb with h0 | h1
  · exfalso
    subst h0
    unfold blocks_per_batch at hi
    split at hi <;> omega
  · have hstep := batch_block_offset_succ bpfb fb h1 b
    have hmono := batch_block_offset_mono bpfb fb h1 (show b + 1 ≤ B from hb)
    rw [batch_block_offset_total B bpfb fb T h h1] at hmono
    omega

/-- One pass equals one serial run of all `T` blocks from offset `0` with the
per-digit global table as initial running offsets, provided the cross-batch
table holds each digit's count over the blocks preceding the batch. -/
theorem sort_and_scatter_eq_single {α : Type} (items : List (Nat × α)) (padv : α)
    (bit crb w Rbits BS IPT bpfb fb B T : Nat) (ds bds : Nat → Nat)
    (hkeys : ∀ kv ∈ items, kv.1 < 2 ^ w) (hshort : BS * IPT < 65536)
    (hbat : ValidBatching B bpfb fb T)
    (hblk : ∀ t, t < T → t * (BS * IPT) < items.length)
    (hbds : ∀ b, b < B → ∀ d, d < 2 ^ crb →
      bds (b * 2 ^ Rbits + d)
        = digit_cnt bit crb d
            (items.take (batch_block_offset bpfb fb b * (BS * IPT)))) :
    sort_and_scatter items padv bit crb w Rbits BS IPT bpfb fb B ds bds
      = sort_and_scatter_batch items padv bit crb w (BS * IPT) T 0 ds := by
  rcases Nat.eq_zero_or_pos bpfb with h0 | h1
  · have heq := hbat.heq
    have hfb := hbat.hfb
    subst h0
    have hT0 : T = 0 := by
      push_cast at heq
      omega
    rw [hT0, sort_and_scatter_batch_zero]
    unfold sort_and_scatter
    rw [List.bind_eq_nil]
    intro b _
    have hbz : blocks_per_batch 0 fb b = 0 := by
      unfold blocks_per_batch
      split <;> omega
    rw [hbz, sort_and_scatter_batch_zero]
  · have key : ∀ k, k ≤ B →
        (List.range k).flatMap (fun b =>
          sort_and_scatter_batch items padv bit crb w (BS * IPT)
            (blocks_per_batch bpfb fb b)
            (batch_block_offset bpfb fb b * (BS * IPT))
            (fun d => ds d + bds (b * 2 ^ Rbits + d)))
          = sort_and_scatter_batch items padv bit crb w (BS * IPT)
              (batch_block_offset bpfb fb k) 0 ds := by
      intro k
      induction k with
      | zero =>
        intro _
        rw [batch_block_offset_zero, sort_and_scatter_batch_zero]
        simp
      | succ k ih =>
        intro hkB
        have hkB' : k ≤ B := by omega
        rw [List.range_succ, List.flatMap_append, ih hkB']
        have hoffT : batch_block_offset bpfb fb k ≤ T := by
          have := batch_block_offset_mono bpfb fb h1 hkB'
          rw [batch_block_offset_total B bpfb fb T hbat h1] at this
          exact this
        rw [batch_block_offset_succ bpfb fb h1 k]
        rw [sort_and_scatter_batch_split items padv bit crb w (BS * IPT) hkeys hshort
          (batch_block_offset bpfb fb k) (blocks_per_batch bpfb fb k) 0 ds
          (fun i hi => by
            rw [Nat.zero_add]
            exact hblk i (by omega))]
        congr 1
        rw [List.flatMap_cons, List.flatMap_nil, List.append_nil]
        rw [Nat.zero_add]
        apply sort_and_scatter_batch_congr
        intro d hd
        beta_reduce
        rw [hbds k (by omega) d hd, List.drop_zero]
    rw [show sort_and_scatter items padv bit crb w Rbits BS IPT bpfb fb B ds bds
      = (List.range B).flatMap (fun b =>
          sort_and_scatter_batch items padv bit crb w (BS * IPT)
            (blocks_per_batch bpfb fb b)
            (batch_block_offset bpfb fb b * (BS * IPT))
            (fun d => ds d + bds (b * 2 ^ Rbits + d))) from rfl]
    rw [key B (Nat.le_refl B), batch_block_offset_total B bpfb fb T hbat h1]

/-- The pass's write list is a permutation of the enumeration of the stable
digit sort of the whole input: every output index in `[0, size)` receives
exactly one item, namely the one the stable digit sort puts there. -/
theorem sort_and_scatter_writes_perm {α : Type} (items : List (Nat × α)) (padv : α)
    (bit crb w Rbits BS IPT bpfb fb B T : Nat) (ds bds : Nat → Nat)
    (hkeys : ∀ kv ∈ items, kv.1 < 2 ^ w) (hshort : BS * IPT < 65536)
    (hbat : ValidBatching B bpfb fb T)
    (hblk : ∀ t, t < T → t * (BS * IPT) < items.length)
    (hTub : items.length ≤ T * (BS * IPT))
    (hds : ∀ d, d < 2 ^ crb → ds d = digit_pref bit crb d items)
    (hbds : ∀ b, b < B → ∀ d, d < 2 ^ crb →
      bds (b * 2 ^ Rbits + d)
        = digit_cnt bit crb d
            (items.take (batch_block_offset bpfb fb b * (BS * IPT)))) :
    List.Perm (sort_and_scatter items padv bit crb w Rbits BS IPT bpfb fb B ds bds)
      ((sort_block bit crb items).enum) := by
  rw [sort_and_scatter_eq_single items padv bit crb w Rbits BS IPT bpfb fb B T ds bds
    hkeys hshort hbat hblk hbds]
  have hperm := sort_and_scatter_batch_perm items padv bit crb w (BS * IPT)
    hkeys hshort T 0 ds
    (fun i hi => by
      rw [Nat.zero_add]
      exact hblk i hi)
  refine hperm.trans ?_
  have hslice : (items.drop 0).take (T * (BS * IPT)) = items := by
    rw [List.drop_zero]
    exact List.take_of_length_le hTub
  rw [hslice, enum_sort_block_eq_flatMap bit crb items]
  apply flatMap_perm_congr
  intro dd hdd
  rw [hds dd (List.mem_range.mp hdd)]

/-- In the sorted block, every position is at or past the digit-prefix count
of its item's digit. -/
theorem rank_ge_pref {α : Type} (bit crb : Nat) (t : List (Nat × α)) :
    ∀ pe ∈ (sort_block bit crb t).enum,
      digit_pref bit crb (digitOf bit crb pe.2.1) t ≤ pe.1 := by
  intro pe hpe
  rw [enum_sort_block_eq_flatMap] at hpe
  rcases List.mem_flatMap.mp hpe with ⟨dd, _, hmem⟩
  rcases List.mem_map.mp hmem with ⟨q, hq, hqe⟩
  have hdig : digitOf bit crb q.2.1 = dd :=
    mem_digit_filter_digit (snd_mem_of_mem_enumFrom _ 0 q hq)
  rw [← hqe]
  dsimp only
  rw [hdig]
  omega

/-- `pos - starts[digit]` never underflows: at every in-range sorted position
the stored start of that position's digit is at most the position. -/
theorem starts_le_pos {α : Type} (items : List (Nat × α)) (padv : α)
    (bit crb w off ipb : Nat) :
    ∀ pe ∈ (sort_block bit crb (block_tile items padv off ipb w)).enum,
      starts_of bit crb (valid_count items.length off ipb)
          (sort_block bit crb (block_tile items padv off ipb w))
          (digitOf bit crb pe.2.1) ≤ pe.1 := by
  intro pe hpe
  have hrank := rank_ge_pref bit crb (block_tile items padv off ipb w) pe hpe
  have hmem : pe.2 ∈ sort_block bit crb (block_tile items padv off ipb w) :=
    snd_mem_of_mem_enumFrom _ 0 pe hpe
  have htile : pe.2 ∈ block_tile items padv off ipb w :=
    (sort_block_perm bit crb _).mem_iff.mp hmem
  have hcnt : 0 < digit_cnt bit crb (digitOf bit crb pe.2.1)
      (block_tile items padv off ipb w) := by
    unfold digit_cnt
    apply List.length_pos_of_mem
    exact List.mem_filter.mpr ⟨htile, by simp⟩
  unfold starts_of
  rw [sort_block_findIdx?_some bit crb (digitOf bit crb pe.2.1) _ hcnt]
  rw [Option.getD_some]
  exact Nat.le_trans (Nat.mod_le _ _) hrank

/-- **C10**: with the stage-1/2/3 tables as inputs and under the batching
precondition, the write indices of one `sort_and_scatter` pass are a
permutation of `[0, size)` — every index in range is written exactly once and
none outside — and the unsigned subtraction `pos - starts[digit]` never
underflows: at every sorted position the stored start of that position's
digit is at most the position. -/
theorem C10_scatter_permutation {α : Type} (items : List (Nat × α)) (padv : α)
    (bit crb w Rbits BS IPT bpfb fb B T : Nat) (ds bds : Nat → Nat)
    (hkeys : ∀ kv ∈ items, kv.1 < 2 ^ w) (hshort : BS * IPT < 65536)
    (hbat : ValidBatching B bpfb fb T)
    (hblk : ∀ t, t < T → t * (BS * IPT) < items.length)
    (hTub : items.length ≤ T * (BS * IPT))
    (hds : ∀ d, d < 2 ^ crb → ds d = digit_pref bit crb d items)
    (hbds : ∀ b, b < B → ∀ d, d < 2 ^ crb →
      bds (b * 2 ^ Rbits + d)
        = digit_cnt bit crb d
            (items.take (batch_block_offset bpfb fb b * (BS * IPT)))) :
    ((sort_and_scatter items padv bit crb w Rbits BS IPT bpfb fb B ds bds).map
        Prod.fst).Perm (List.range items.length)
    ∧ (∀ off : Nat,
        ∀ pe ∈ (sort_block bit crb (block_tile items padv off (BS * IPT) w)).enum,
          starts_of bit crb (valid_count items.length off (BS * IPT))
              (sort_block bit crb (block_tile items padv off (BS * IPT) w))
              (digitOf bit crb pe.2.1) ≤ pe.1) := by
  constructor
  · have h := (sort_and_scatter_writes_perm items padv bit crb w Rbits BS IPT bpfb fb B T
      ds bds hkeys hshort hbat hblk hTub hds hbds).map Prod.fst
    rw [List.enum_map_fst, sort_block_length] at h
    exact h
  · intro off
    exact starts_le_pos items padv bit crb w off (BS * IPT)

/-- Witness for C10 on three items, two blocks, one batch. -/
theorem C10_scatter_permutation_witness :
    ((sort_and_scatter [(1, 0), (0, 1), (3, 2)] 7 0 1 2 1 2 1 2 1 1
        (fun d => d) (fun _ => 0)).map
        Prod.fst).Perm (List.range ([(1, 0), (0, 1), (3, 2)] : List (Nat × Nat)).length)
    ∧ (∀ off : Nat,
        ∀ pe ∈ (sort_block 0 1 (block_tile [(1, 0), (0, 1), (3, 2)] 7 off (2 * 1) 2)).enum,
          starts_of 0 1 (valid_count ([(1, 0), (0, 1), (3, 2)] : List (Nat × Nat)).length
                off (2 * 1))
              (sort_block 0 1 (block_tile [(1, 0), (0, 1), (3, 2)] 7 off (2 * 1) 2))
              (digitOf 0 1 pe.2.1) ≤ pe.1) :=
  C10_scatter_permutation [(1, 0), (0, 1), (3, 2)] 7 0 1 2 1 2 1 2 1 1 2
    (fun d => d) (fun _ => 0)
    (by decide) (by decide) ⟨by decide, by decide⟩ (by decide) (by decide)
    (by decide) (by decide)

/-- **C2**: one pass writes every in-range item, paired key and value
together, to `digit_starts[d] + batch_digit_starts[batch·radix_size + d] +
local rank`, where the local rank enumerates the same-digit items of the
batch's slice in block-iteration order (within a block, in stable
locally-sorted order, which for a fixed digit is the slice order). -/
theorem C2_scatter_destination {α : Type} (items : List (Nat × α)) (padv : α)
    (bit crb w Rbits BS IPT bpfb fb B T : Nat) (ds bds : Nat → Nat)
    (hkeys : ∀ kv ∈ items, kv.1 < 2 ^ w) (hshort : BS * IPT < 65536)
    (hbat : ValidBatching B bpfb fb T)
    (hblk : ∀ t, t < T → t * (BS * IPT) < items.length) :
    List.Perm
      (sort_and_scatter items padv bit crb w Rbits BS IPT bpfb fb B ds bds)
      ((List.range B).flatMap (fun b =>
        (List.range (2 ^ crb)).flatMap (fun d =>
          (digit_filter bit crb d
              ((items.drop (batch_block_offset bpfb fb b * (BS * IPT))).take
                (blocks_per_batch bpfb fb b * (BS * IPT)))).enum.map
            (fun pe => (ds d + bds (b * 2 ^ Rbits + d) + pe.1, pe.2))))) := by
  rw [show sort_and_scatter items padv bit crb w Rbits BS IPT bpfb fb B ds bds
    = (List.range B).flatMap (fun b =>
        sort_and_scatter_batch items padv bit crb w (BS * IPT)
          (blocks_per_batch bpfb fb b)
          (batch_block_offset bpfb fb b * (BS * IPT))
          (fun d => ds d + bds (b * 2 ^ Rbits + d))) from rfl]
  apply flatMap_perm_congr
  intro b hb
  exact sort_and_scatter_batch_perm items padv bit crb w (BS * IPT) hkeys hshort
    (blocks_per_batch bpfb fb b) (batch_block_offset bpfb fb b * (BS * IPT))
    (fun d => ds d + bds (b * 2 ^ Rbits + d))
    (fun i hi => by
      rw [← Nat.add_mul]
      exact hblk (batch_block_offset bpfb fb b + i)
        (batch_block_lt_total B bpfb fb T hbat b i (List.mem_range.mp hb) hi))

/-- Witness for C2 on three items, two blocks, one batch, arbitrary tables. -/
theorem C2_scatter_destination_witness :
    List.Perm
      (sort_and_scatter [(2, 0), (1, 1), (0, 2)] 9 0 1 2 1 2 1 2 1 1
        (fun _ => 5) (fun _ => 1))
      ((List.range 1).flatMap (fun b =>
        (List.range (2 ^ 1)).flatMap (fun d =>
          (digit_filter 0 1 d
              ((([(2, 0), (1, 1), (0, 2)] : List (Nat × Nat)).drop
                  (batch_block_offset 2 1 b * (2 * 1))).take
                (blocks_per_batch 2 1 b * (2 * 1)))).enum.map
            (fun pe => ((fun _ => 5 : Nat → Nat) d
              + (fun _ => 1 : Nat → Nat) (b * 2 ^ 1 + d) + pe.1, pe.2))))) :=
  C2_scatter_destination [(2, 0), (1, 1), (0, 2)] 9 0 1 2 1 2 1 2 1 1 2
    (fun _ => 5) (fun _ => 1)
    (by decide) (by decide) ⟨by decide, by decide⟩ (by decide)

/-! ### Payload genericity (claim C8)

Every stage-4 decision — tile padding, digit comparison, sub-run boundary,
destination — reads only the bit key; the payload (the paired value) rides
along.  Formally, re-labelling the payload pointwise commutes with the whole
pass. -/

/-- Pointwise payload re-labelling, keeping the bit key. -/
def payload_map {α β : Type} (f : α → β) (kv : Nat × α) : Nat × β :=
  (kv.1, f kv.2)

/-- The value stores of the scatter loop (lines 419–424): guarded by
`if(with_values)`, each write event's value goes to the event's destination;
with an empty value type (`with_values = false`) no value store happens. -/
def value_writes {α : Type} (with_values : Bool) (ws2 : List (Nat × (Nat × α))) :
    List (Nat × α) :=
  if with_values then ws2.map (fun e => (e.1, e.2.2)) else []

theorem block_tile_payload_map {α β : Type} (f : α → β) (items : List (Nat × α))
    (padv : α) (off ipb w : Nat) :
    block_tile (items.map (payload_map f)) (f padv) off ipb w
      = (block_tile items padv off ipb w).map (payload_map f) := by
  simp only [block_tile]
  rw [← List.map_drop, ← List.map_take, List.map_append, List.map_replicate,
    List.length_map]
  rfl

theorem sort_block_payload_map {α β : Type} (f : α → β) (bit crb : Nat)
    (t : List (Nat × α)) :
    sort_block bit crb (t.map (payload_map f))
      = (sort_block bit crb t).map (payload_map f) := by
  unfold sort_block
  rw [List.map_flatMap]
  apply List.flatMap_congr
  intro dd _
  rw [List.map_filter]
  exact congrArg (List.map (payload_map f)) (List.filter_congr (fun kv _ => rfl))

theorem starts_of_payload_map {α β : Type} (f : α → β) (bit crb vc : Nat)
    (sorted : List (Nat × α)) (d : Nat) :
    starts_of bit crb vc (sorted.map (payload_map f)) d
      = starts_of bit crb vc sorted d := by
  unfold starts_of
  rw [List.findIdx?_map]
  rfl

theorem ends_of_payload_map {α β : Type} (f : α → β) (bit crb vc : Nat)
    (sorted : List (Nat × α)) (d : Nat) :
    ends_of bit crb vc (sorted.map (payload_map f)) d = ends_of bit crb vc sorted d := by
  unfold ends_of
  rw [List.reverse_map, List.findIdx?_map, List.length_map]
  rfl

theorem block_scatter_writes_payload_map {α β : Type} (f : α → β) (bit crb vc : Nat)
    (bs : Nat → Nat) (sorted : List (Nat × α)) :
    block_scatter_writes bit crb vc bs (sorted.map (payload_map f))
      = (block_scatter_writes bit crb vc bs sorted).map
          (fun e => (e.1, payload_map f e.2)) := by
  unfold block_scatter_writes
  simp only [starts_of_payload_map]
  rw [← List.map_take, List.enum_map, List.map_map, List.map_map]
  apply List.map_congr_left
  intro pe _
  rfl

theorem advance_payload_map {α β : Type} (f : α → β) (bit crb vc : Nat)
    (bs : Nat → Nat) (sorted : List (Nat × α)) :
    advance_block_starts bit crb vc bs (sorted.map (payload_map f))
      = advance_block_starts bit crb vc bs sorted := by
  funext d
  unfold advance_block_starts
  rw [starts_of_payload_map, ends_of_payload_map]

theorem sort_and_scatter_batch_payload_map {α β : Type} (f : α → β)
    (items : List (Nat × α)) (padv : α) (bit crb w ipb : Nat) :
    ∀ (n off : Nat) (bs : Nat → Nat),
    sort_and_scatter_batch (items.map (payload_map f)) (f padv) bit crb w ipb n off bs
      = (sort_and_scatter_batch items padv bit crb w ipb n off bs).map
          (fun e => (e.1, payload_map f e.2))
  | 0, _, _ => rfl
  | n + 1, off, bs => by
    rw [sort_and_scatter_batch_succ, sort_and_scatter_batch_succ, List.map_append]
    rw [List.length_map, block_tile_payload_map, sort_block_payload_map]
    rw [block_scatter_writes_payload_map, advance_payload_map]
    congr 1
    exact sort_and_scatter_batch_payload_map f items padv bit crb w ipb n (off + ipb) _

theorem sort_and_scatter_payload_map {α β : Type} (f : α → β) (items : List (Nat × α))
    (padv : α) (bit crb w Rbits BS IPT bpfb fb B : Nat) (ds bds : Nat → Nat) :
    sort_and_scatter (items.map (payload_map f)) (f padv)
        bit crb w Rbits BS IPT bpfb fb B ds bds
      = (sort_and_scatter items padv bit crb w Rbits BS IPT bpfb fb B ds bds).map
          (fun e => (e.1, payload_map f e.2)) := by
  unfold sort_and_scatter
  rw [List.map_flatMap]
  apply List.flatMap_congr
  intro b _
  exact sort_and_scatter_batch_payload_map f items padv bit crb w (BS * IPT) _ _ _

/-- **C8**: values ride with their keys.  Re-labelling the payload pointwise
commutes with the whole pass, so the value permutation equals the key
permutation (each write event carries its key and paired value to the same
destination index, and with payload re-labelled the destinations and keys
are unchanged); the guarded value stores emit one value write per key write
at the identical destination when values are present, and nothing at all for
an empty value type. -/
theorem C8_value_colocation {α β : Type} (f : α → β) (items : List (Nat × α))
    (padv : α) (bit crb w Rbits BS IPT bpfb fb B : Nat) (ds bds : Nat → Nat) :
    sort_and_scatter (items.map (payload_map f)) (f padv)
        bit crb w Rbits BS IPT bpfb fb B ds bds
      = (sort_and_scatter items padv bit crb w Rbits BS IPT bpfb fb B ds bds).map
          (fun e => (e.1, (e.2.1, f e.2.2)))
    ∧ value_writes false
        (sort_and_scatter items padv bit crb w Rbits BS IPT bpfb fb B ds bds) = []
    ∧ (value_writes true
          (sort_and_scatter items padv bit crb w Rbits BS IPT bpfb fb B ds bds)).map
        Prod.fst
      = (sort_and_scatter items padv bit crb w Rbits BS IPT bpfb fb B ds bds).map
          Prod.fst := by
  refine ⟨?_, rfl, ?_⟩
  · rw [sort_and_scatter_payload_map]
    apply List.map_congr_left
    intro e _
    rfl
  · rw [show value_writes true
        (sort_and_scatter items padv bit crb w Rbits BS IPT bpfb fb B ds bds)
      = (sort_and_scatter items padv bit crb w Rbits BS IPT bpfb fb B ds bds).map
          (fun e => (e.1, e.2.2)) from rfl]
    rw [List.map_map]
    apply List.map_congr_left
    intro e _
    rfl

/-! ### Per-pass stability and the multi-pass LSD argument (claim C1) -/

/-- Inverting the enumeration of the stable digit sort: every entry sits at
its digit's prefix count plus its rank within its digit's subsequence. -/
theorem enum_sort_block_inv {α : Type} (bit crb : Nat) (t : List (Nat × α))
    (e : Nat × (Nat × α)) (he : e ∈ (sort_block bit crb t).enum) :
    ∃ r, (digit_filter bit crb (digitOf bit crb e.2.1) t)[r]? = some e.2
      ∧ e.1 = digit_pref bit crb (digitOf bit crb e.2.1) t + r := by
  rw [enum_sort_block_eq_flatMap] at he
  rcases List.mem_flatMap.mp he with ⟨dd, _, hmem⟩
  rcases List.mem_map.mp hmem with ⟨q, hq, hqe⟩
  have hget := List.mem_enum_iff_getElem?.mp hq
  have hdgq : digitOf bit crb q.2.1 = dd :=
    mem_digit_filter_digit (snd_mem_of_mem_enumFrom _ 0 q hq)
  have he2 : e.2 = q.2 := by rw [← hqe]
  have he1 : e.1 = digit_pref bit crb dd t + q.1 := by rw [← hqe]
  have hd2 : digitOf bit crb e.2.1 = dd := by rw [he2, hdgq]
  rw [hd2]
  exact ⟨q.1, by rw [he2]; exact hget, he1⟩

/-- Stability of the stable digit sort: of two index-tagged entries with
equal digits, the one earlier in the input ends at a strictly smaller sorted
position. -/
theorem sort_block_stable_rank (bit crb : Nat) (t : List (Nat × Nat))
    (hidx : t.Pairwise (fun x y => x.2 < y.2))
    (e1 e2 : Nat × (Nat × Nat))
    (h1 : e1 ∈ (sort_block bit crb t).enum) (h2 : e2 ∈ (sort_block bit crb t).enum)
    (hdig : digitOf bit crb e1.2.1 = digitOf bit crb e2.2.1)
    (hlt : e1.2.2 < e2.2.2) : e1.1 < e2.1 := by
  rcases enum_sort_block_inv bit crb t e1 h1 with ⟨r1, hget1, hpos1⟩
  rcases enum_sort_block_inv bit crb t e2 h2 with ⟨r2, hget2, hpos2⟩
  rw [hdig] at hget1 hpos1
  rcases List.getElem?_eq_some.mp hget1 with ⟨hr1, hgetEq1⟩
  rcases List.getElem?_eq_some.mp hget2 with ⟨hr2, hgetEq2⟩
  have hFpw : (digit_filter bit crb (digitOf bit crb e2.2.1) t).Pairwise
      (fun x y => x.2 < y.2) := List.Pairwise.filter _ hidx
  rw [List.pairwise_iff_getElem] at hFpw
  have hr12 : r1 < r2 := by
    rcases Nat.lt_trichotomy r1 r2 with h | h | h
    · exact h
    · exfalso
      subst h
      rw [hget1] at hget2
      have : e1.2 = e2.2 := Option.some.inj hget2
      rw [this] at hlt
      exact Nat.lt_irrefl _ hlt
    · exfalso
      have := hFpw r2 r1 hr2 hr1 h
      rw [hgetEq1, hgetEq2] at this
      omega
  omega

theorem range_mul_flatMap (a b : Nat) :
    List.range (a * b)
      = (List.range a).flatMap (fun i => (List.range b).map (fun j => i * b + j)) := by
  induction a with
  | zero => simp
  | succ a ih =>
    rw [show (a + 1) * b = a * b + b from by ring, List.range_add, List.range_succ,
      List.flatMap_append, ih, List.flatMap_cons, List.flatMap_nil, List.append_nil]

/-- A zero-width digit window makes the local digit sort the identity. -/
theorem sort_block_zero_width {α : Type} (m : Nat) (t : List (Nat × α)) :
    sort_block m 0 t = t := by
  unfold sort_block
  rw [pow_zero, show List.range 1 = [0] from rfl, List.flatMap_cons, List.flatMap_nil,
    List.append_nil]
  apply List.filter_eq_self.mpr
  intro kv _
  simp [digitOf_eq_mod, Nat.mod_one]

/-- Splitting a `(m + c)`-bit remainder into the digit window `[m, m + c)`
and the low `m` bits. -/
theorem digit_mod_split (k m c d u : Nat) (hu : u < 2 ^ m) :
    (k / 2 ^ m % 2 ^ c = d ∧ k % 2 ^ m = u) ↔ k % 2 ^ (m + c) = d * 2 ^ m + u := by
  constructor
  · rintro ⟨h1, h2⟩
    rw [pow_add, Nat.mod_mul, h1, h2]
    ring
  · intro h
    rw [pow_add] at h
    constructor
    · have hdm : k % (2 ^ m * 2 ^ c) / 2 ^ m = k / 2 ^ m % 2 ^ c :=
        Nat.mod_mul_right_div_self k (2 ^ m) (2 ^ c)
      rw [← hdm, h, show d * 2 ^ m + u = u + 2 ^ m * d from by ring,
        Nat.add_mul_div_left u d (Nat.two_pow_pos m), Nat.div_eq_of_lt hu]
      omega
    · have hmm := Nat.mod_mod_of_dvd k (dvd_mul_right ((2:Nat) ^ m) (2 ^ c))
      rw [← hmm, h, show d * 2 ^ m + u = u + d * 2 ^ m from by ring,
        Nat.add_mul_mod_self_right, Nat.mod_eq_of_lt hu]

/-- Composing a pass at window `[m, m + c)` after a stable sort by the low
`m` bits yields the stable sort by the low `m + c` bits — the LSD invariant
step. -/
theorem sort_block_compose {α : Type} (m c : Nat) (t : List (Nat × α)) :
    sort_block m c (sort_block 0 m t) = sort_block 0 (m + c) t := by
  unfold sort_block
  rw [show (2:Nat) ^ (m + c) = 2 ^ c * 2 ^ m from by rw [pow_add]; ring]
  rw [range_mul_flatMap (2 ^ c) (2 ^ m), List.bind_assoc]
  apply List.flatMap_congr
  intro d _
  rw [List.flatMap_map, List.filter_flatMap]
  apply List.flatMap_congr
  intro u hu
  rw [List.filter_filter]
  apply List.filter_congr
  intro kv _
  apply Bool.coe_iff_coe.mp
  simp only [Bool.and_eq_true, beq_iff_eq, digitOf_eq_mod, pow_zero, Nat.div_one]
  exact digit_mod_split kv.1 m c d u (List.mem_range.mp hu)

/-- Modelled from the spec: the external orchestrator's multi-pass loop,
iterating passes low-to-high with `bit = p · radix_bits` and
`current_radix_bits = min(radix_bits, end_bit − bit)`; each pass's array
content is the stable digit sort realized by `sort_and_scatter`
(`sort_and_scatter_writes_perm`). -/
def lsd_iter {α : Type} (rb w : Nat) (items : List (Nat × α)) : Nat → List (Nat × α)
  | 0 => items
  | p + 1 => sort_block (p * rb) (min rb (w - p * rb)) (lsd_iter rb w items p)

/-- The LSD invariant: after `p` passes the array is the stable sort by the
low `min(p · rb, w)` bits. -/
theorem lsd_iter_eq {α : Type} (rb w : Nat) (items : List (Nat × α)) :
    ∀ p, lsd_iter rb w items p = sort_block 0 (min (p * rb) w) items
  | 0 => by
    rw [show lsd_iter rb w items 0 = items from rfl, Nat.zero_mul]
    rw [show min 0 w = 0 from by omega]
    exact (sort_block_zero_width 0 items).symm
  | p + 1 => by
    rw [show lsd_iter rb w items (p + 1)
      = sort_block (p * rb) (min rb (w - p * rb)) (lsd_iter rb w items p) from rfl]
    rw [lsd_iter_eq rb w items p]
    rcases Nat.lt_or_ge (p * rb) w with hlt | hge
    · rw [show min (p * rb) w = p * rb from by omega]
      rw [sort_block_compose (p * rb) (min rb (w - p * rb)) items]
      congr 1
      rw [Nat.succ_mul]
      omega
    · rw [show min rb (w - p * rb) = 0 from by omega, sort_block_zero_width]
      congr 1
      rw [Nat.succ_mul]
      omega

theorem pairwise_flatMap_of {β : Type} (R : β → β → Prop) (F : Nat → List β) :
    ∀ dl : List Nat, dl.Pairwise (· < ·) →
    (∀ v ∈ dl, (F v).Pairwise R) →
    (∀ v1 v2, v1 ∈ dl → v2 ∈ dl → v1 < v2 → ∀ x ∈ F v1, ∀ y ∈ F v2, R x y) →
    (dl.flatMap F).Pairwise R
  | [], _, _, _ => by simp
  | v :: rest, hdl, hin, hacross => by
    rw [List.flatMap_cons, List.pairwise_append]
    rcases List.pairwise_cons.mp hdl with ⟨hvlt, hrest⟩
    refine ⟨hin v (List.mem_cons_self _ _),
      pairwise_flatMap_of R F rest hrest
        (fun u hu => hin u (List.mem_cons_of_mem _ hu))
        (fun v1 v2 h1 h2 hlt => hacross v1 v2 (List.mem_cons_of_mem _ h1)
          (List.mem_cons_of_mem _ h2) hlt), ?_⟩
    intro x hx y hy
    rcases List.mem_flatMap.mp hy with ⟨v2, hv2, hyF⟩
    exact hacross v v2 (List.mem_cons_self _ _) (List.mem_cons_of_mem _ hv2)
      (hvlt v2 hv2) x hx y hyF

theorem key_of_mem_full_filter {α : Type} (w v : Nat) (t : List (Nat × α))
    (hkeys : ∀ kv ∈ t, kv.1 < 2 ^ w) (kv : Nat × α)
    (h : kv ∈ t.filter (fun kv => digitOf 0 w kv.1 == v)) : kv.1 = v := by
  rcases List.mem_filter.mp h with ⟨ht, hd⟩
  have hdv : digitOf 0 w kv.1 = v := beq_iff_eq.mp hd
  rw [digitOf_eq_mod, pow_zero, Nat.div_one, Nat.mod_eq_of_lt (hkeys kv ht)] at hdv
  exact hdv

/-- The full-width stable digit sort is non-decreasing in key with equal-key
entries in input order (payloads strictly increasing along the input). -/
theorem sort_block_full_sorted (w : Nat) (t : List (Nat × Nat))
    (hkeys : ∀ kv ∈ t, kv.1 < 2 ^ w)
    (hidx : t.Pairwise (fun x y => x.2 < y.2)) :
    (sort_block 0 w t).Pairwise
      (fun x y => x.1 < y.1 ∨ (x.1 = y.1 ∧ x.2 < y.2)) := by
  unfold sort_block
  apply pairwise_flatMap_of
  · exact List.pairwise_lt_range _
  · intro v _
    apply List.Pairwise.imp_of_mem ?_ (List.Pairwise.filter _ hidx)
    intro x y hx hy hxy
    have hx1 := key_of_mem_full_filter w v t hkeys x hx
    have hy1 := key_of_mem_full_filter w v t hkeys y hy
    right
    exact ⟨by rw [hx1, hy1], hxy⟩
  · intro v1 v2 hv1 hv2 hlt x hx y hy
    have hx1 := key_of_mem_full_filter w v1 t hkeys x hx
    have hy1 := key_of_mem_full_filter w v2 t hkeys y hy
    left
    omega

/-- Running enough passes to cover the key width stably sorts ascending. -/
theorem lsd_iter_full (rb w P : Nat) (t : List (Nat × Nat)) (hP : w ≤ P * rb)
    (hkeys : ∀ kv ∈ t, kv.1 < 2 ^ w)
    (hidx : t.Pairwise (fun x y => x.2 < y.2)) :
    (lsd_iter rb w t P).Pairwise
      (fun x y => x.1 < y.1 ∨ (x.1 = y.1 ∧ x.2 < y.2)) := by
  rw [lsd_iter_eq rb w t P, show min (P * rb) w = w from by omega]
  exact sort_block_full_sorted w t hkeys hidx

/-- **C1**: stable partition per pass, and stable full sort.  With payloads
carrying the original input positions: (i) one `sort_and_scatter` pass
writes the earlier of two equal-digit items to a strictly smaller output
index; (ii) iterating passes low-to-high until the full key width is
covered yields output non-decreasing in key with equal keys in input order;
(iii) with the descending codec (bitwise complement on `w`-bit keys,
modelled from the spec's codec contract) the decoded output is
non-increasing in key with equal keys in input order. -/
theorem C1_stable_sort (items : List (Nat × Nat)) (padv : Nat)
    (bit crb w Rbits BS IPT bpfb fb B T rb P : Nat) (ds bds : Nat → Nat)
    (hkeys : ∀ kv ∈ items, kv.1 < 2 ^ w) (hshort : BS * IPT < 65536)
    (hbat : ValidBatching B bpfb fb T)
    (hblk : ∀ t, t < T → t * (BS * IPT) < items.length)
    (hTub : items.length ≤ T * (BS * IPT))
    (hds : ∀ d, d < 2 ^ crb → ds d = digit_pref bit crb d items)
    (hbds : ∀ b, b < B → ∀ d, d < 2 ^ crb →
      bds (b * 2 ^ Rbits + d)
        = digit_cnt bit crb d
            (items.take (batch_block_offset bpfb fb b * (BS * IPT))))
    (hidx : items.Pairwise (fun x y => x.2 < y.2))
    (hP : w ≤ P * rb) :
    (∀ e1 e2,
      e1 ∈ sort_and_scatter items padv bit crb w Rbits BS IPT bpfb fb B ds bds →
      e2 ∈ sort_and_scatter items padv bit crb w Rbits BS IPT bpfb fb B ds bds →
      digitOf bit crb e1.2.1 = digitOf bit crb e2.2.1 →
      e1.2.2 < e2.2.2 → e1.1 < e2.1)
    ∧ (lsd_iter rb w items P).Pairwise
        (fun x y => x.1 < y.1 ∨ (x.1 = y.1 ∧ x.2 < y.2))
    ∧ ((lsd_iter rb w (items.map (fun kv => (2 ^ w - 1 - kv.1, kv.2))) P).map
          (fun kv => (2 ^ w - 1 - kv.1, kv.2))).Pairwise
        (fun x y => y.1 < x.1 ∨ (x.1 = y.1 ∧ x.2 < y.2)) := by
  have hperm := sort_and_scatter_writes_perm items padv bit crb w Rbits BS IPT
    bpfb fb B T ds bds hkeys hshort hbat hblk hTub hds hbds
  refine ⟨?_, lsd_iter_full rb w P items hP hkeys hidx, ?_⟩
  · intro e1 e2 he1 he2 hdig hlt
    exact sort_block_stable_rank bit crb items hidx e1 e2
      (hperm.mem_iff.mp he1) (hperm.mem_iff.mp he2) hdig hlt
  · have hpos := Nat.two_pow_pos w
    have hkeys2 : ∀ kv ∈ items.map (fun kv => (2 ^ w - 1 - kv.1, kv.2)),
        kv.1 < 2 ^ w := by
      intro kv hkv
      rcases List.mem_map.mp hkv with ⟨kv0, _, heq⟩
      rw [← heq]
      show 2 ^ w - 1 - kv0.1 < 2 ^ w
      omega
    have hidx2 : (items.map (fun kv => (2 ^ w - 1 - kv.1, kv.2))).Pairwise
        (fun x y => x.2 < y.2) := by
      rw [List.pairwise_map]
      exact hidx
    have hsorted := lsd_iter_full rb w P _ hP hkeys2 hidx2
    have hmem : ∀ kv ∈ lsd_iter rb w (items.map (fun kv => (2 ^ w - 1 - kv.1, kv.2))) P,
        kv.1 < 2 ^ w := by
      intro kv hkv
      rw [lsd_iter_eq] at hkv
      exact hkeys2 kv ((sort_block_perm _ _ _).mem_iff.mp hkv)
    rw [List.pairwise_map]
    apply List.Pairwise.imp_of_mem ?_ hsorted
    intro a b ha hb hab
    have ha1 := hmem a ha
    have hb1 := hmem b hb
    rcases hab with h | ⟨heq, hpay⟩
    · left
      show 2 ^ w - 1 - b.1 < 2 ^ w - 1 - a.1
      omega
    · right
      exact ⟨show 2 ^ w - 1 - a.1 = 2 ^ w - 1 - b.1 from by rw [heq], hpay⟩

/-- Witness for C1 on three index-tagged items, two blocks, one batch,
one-bit digits over a two-bit key width in two passes. -/
theorem C1_stable_sort_witness :
    (∀ e1 e2,
      e1 ∈ sort_and_scatter [(1, 0), (0, 1), (3, 2)] 7 0 1 2 1 2 1 2 1 1
        (fun d => d) (fun _ => 0) →
      e2 ∈ sort_and_scatter [(1, 0), (0, 1), (3, 2)] 7 0 1 2 1 2 1 2 1 1
        (fun d => d) (fun _ => 0) →
      digitOf 0 1 e1.2.1 = digitOf 0 1 e2.2.1 →
      e1.2.2 < e2.2.2 → e1.1 < e2.1)
    ∧ (lsd_iter 1 2 [(1, 0), (0, 1), (3, 2)] 2).Pairwise
        (fun x y => x.1 < y.1 ∨ (x.1 = y.1 ∧ x.2 < y.2))
    ∧ ((lsd_iter 1 2 (([(1, 0), (0, 1), (3, 2)] : List (Nat × Nat)).map
          (fun kv => (2 ^ 2 - 1 - kv.1, kv.2))) 2).map
          (fun kv => (2 ^ 2 - 1 - kv.1, kv.2))).Pairwise
        (fun x y => y.1 < x.1 ∨ (x.1 = y.1 ∧ x.2 < y.2)) :=
  C1_stable_sort [(1, 0), (0, 1), (3, 2)] 7 0 1 2 1 2 1 2 1 1 2 1 2
    (fun d => d) (fun _ => 0)
    (by decide) (by decide) ⟨by decide, by decide⟩ (by decide) (by decide)
    (by decide) (by decide) (by decide) (by decide)

end RocSort
